import Mathlib

/-!
# SSLproxy thread manager: worker pool scheduling and connection registry

A shallow embedding of `src/pxythrmgr.c` (namespace `Pxythrmgr`) and of the
later revision `src/src/pxythrmgr.c` (namespace `SrcPxythrmgr`).

Modelling conventions.

* A pointer to a connection record is an address (`Addr`); the fields of the
  records live in a store `State.mctx : Addr → proxy_conn_meta_ctx_t`.
* A pointer to a worker (`mctx->thr`) is the index of the worker in
  `ctx->thr`; `none` is the NULL pointer.  `ctx->num_thr` is the length of
  `ctx->thr`.
* The singly linked registry `thr->mctx_list` (linked through `next`) is the
  list of the addresses of its nodes, head first.  The transient chain linked
  through `next_expired` is likewise the list of its nodes, head first.
* `size_t` / `unsigned long` are 64 bits wide: arithmetic on them is reduced
  modulo `2 ^ 64`.  `time_t` is a signed 64 bit integer.
* A dereference of a NULL or dangling pointer, and a failing `assert`, end the
  call without a result (`none`).
* The mutexes are not modelled: every call runs to completion on its own.
-/

/-- Address of a connection record. -/
abbrev Addr := Nat

/-- Value of a UUID. -/
abbrev uuid_t := Nat

/-- Number of values of a `size_t` / `unsigned long`. -/
def SIZE_MOD : Nat := 2 ^ 64

/-- Comparison of two UUIDs: `0` exactly when they are equal. -/
def uuid_compare (a b : uuid_t) : Int :=
  if a = b then 0 else if a < b then -1 else 1

namespace Pxythrmgr

def THR_TIMER_TIMEOUT : Int := 10
def THR_TIMER_PRINT_INFO_TIMEOUT : Int := 1 * THR_TIMER_TIMEOUT
def CONN_EXPIRE_TIME : Nat := 30

/-- Connection record (`proxy_conn_meta_ctx_t`), without its `next` and
`next_expired` links, which are carried by the lists they thread. -/
structure proxy_conn_meta_ctx_t where
  uuid : uuid_t
  fd : Int
  child_fd : Int
  access_time : Int
  parent_ctx : Option Addr
  child_list : Option Addr
  thr : Option Nat
  evbase : Option Nat
  dnsbase : Option Nat
deriving DecidableEq, Repr

/-- Worker context (`pxy_thr_ctx_t`). -/
structure pxy_thr_ctx_t where
  evbase : Option Nat
  dnsbase : Option Nat
  load : Nat
  running : Int
  mctx_list : List Addr
  thridx : Int
  timeout_count : Int
deriving DecidableEq, Repr

/-- The pool (`ctx->thr`) together with the store of connection records. -/
structure State where
  thr : List pxy_thr_ctx_t
  mctx : Addr → proxy_conn_meta_ctx_t

/-- The loop `for (idx = 1; idx < num_thr; idx++)` of `pxy_thrmgr_attach`,
run over the workers that are still to be visited: `idx` is the index of the
first of them, `thridx` and `minload` are the loop's variables. -/
def attach_scan : List pxy_thr_ctx_t → Nat → Nat → Nat → Nat
  | [], _, thridx, _ => thridx
  | t :: ts, idx, thridx, minload =>
    if minload > t.load then attach_scan ts (idx + 1) idx t.load
    else attach_scan ts (idx + 1) thridx minload

/-- Embedding of `pxy_thrmgr_attach` (src/pxythrmgr.c). -/
def pxy_thrmgr_attach (s : State) (mctx : Addr) : Option State :=
  match s.thr with
  | [] => none
  | t0 :: rest =>
    let thridx := attach_scan rest 1 0 t0.load
    match s.thr[thridx]? with
    | none => none
    | some t =>
      let m := s.mctx mctx
      some
        { thr := s.thr.set thridx
            { t with load := (t.load + 1) % SIZE_MOD, mctx_list := mctx :: t.mctx_list }
          mctx := Function.update s.mctx mctx
            { m with thr := some thridx, evbase := t.evbase, dnsbase := t.dnsbase } }

/-- Embedding of `pxy_thrmgr_attach_child`. -/
def pxy_thrmgr_attach_child (s : State) (mctx : Addr) : Option State :=
  match (s.mctx mctx).thr with
  | none => none
  | some i =>
    match s.thr[i]? with
    | none => none
    | some t => some { s with thr := s.thr.set i { t with load := (t.load + 1) % SIZE_MOD } }

/-- The `while (current != NULL && previous != NULL)` loop of
`pxy_thrmgr_remove_mctx`, run over the nodes from `current` on; the result is
the chain that hangs from `previous->next` afterwards. -/
def remove_walk (mem : Addr → proxy_conn_meta_ctx_t) (node : Addr) : List Addr → List Addr
  | [] => []
  | current :: rest =>
    if uuid_compare (mem node).uuid (mem current).uuid = 0 then rest
    else current :: remove_walk mem node rest

/-- Embedding of `pxy_thrmgr_remove_mctx`: the new value of `*head`, or `none`
when `assert(*head != NULL)` fails. -/
def pxy_thrmgr_remove_mctx (mem : Addr → proxy_conn_meta_ctx_t) (node : Addr)
    (head : List Addr) : Option (List Addr) :=
  match head with
  | [] => none
  | h :: rest =>
    if uuid_compare (mem node).uuid (mem h).uuid = 0 then some rest
    else some (h :: remove_walk mem node rest)

/-- Embedding of `pxy_thrmgr_detach`. -/
def pxy_thrmgr_detach (s : State) (mctx : Addr) : Option State :=
  match (s.mctx mctx).thr with
  | none => none
  | some i =>
    match s.thr[i]? with
    | none => none
    | some t =>
      let load := (t.load + SIZE_MOD - 1) % SIZE_MOD
      match (s.mctx mctx).child_list with
      | none =>
        match pxy_thrmgr_remove_mctx s.mctx mctx t.mctx_list with
        | none => none
        | some l => some { s with thr := s.thr.set i { t with load := load, mctx_list := l } }
      | some _ => some { s with thr := s.thr.set i { t with load := load } }

/-- Embedding of `pxy_thrmgr_detach_child`. -/
def pxy_thrmgr_detach_child (s : State) (mctx : Addr) : Option State :=
  match (s.mctx mctx).thr with
  | none => none
  | some i =>
    match s.thr[i]? with
    | none => none
    | some t =>
      let load := (t.load + SIZE_MOD - 1) % SIZE_MOD
      match (s.mctx mctx).parent_ctx, (s.mctx mctx).child_list with
      | none, none =>
        match pxy_thrmgr_remove_mctx s.mctx mctx t.mctx_list with
        | none => none
        | some l => some { s with thr := s.thr.set i { t with load := load, mctx_list := l } }
      | _, _ => some { s with thr := s.thr.set i { t with load := load } }

/-- The `unsigned long elapsed_time = now - mctx->access_time` of
`pxy_thrmgr_get_thr_expired_conns`. -/
def elapsed_time (now access_time : Int) : Nat :=
  ((now - access_time) % (SIZE_MOD : Int)).toNat

/-- The first loop of `pxy_thrmgr_get_thr_expired_conns`, run over the registry
nodes still to be visited; `expired_conns` is the chain collected so far. -/
def expired_walk (mem : Addr → proxy_conn_meta_ctx_t) (now : Int) :
    List Addr → List Addr → List Addr
  | [], expired_conns => expired_conns
  | mctx :: rest, expired_conns =>
    if elapsed_time now (mem mctx).access_time > CONN_EXPIRE_TIME then
      expired_walk mem now rest (mctx :: expired_conns)
    else expired_walk mem now rest expired_conns

/-- Embedding of `pxy_thrmgr_get_thr_expired_conns`; `now` is the value that
`time(NULL)` returns.  The result is the chain left in `*expired_conns`. -/
def pxy_thrmgr_get_thr_expired_conns (mem : Addr → proxy_conn_meta_ctx_t)
    (ctx : pxy_thr_ctx_t) (now : Int) : List Addr :=
  expired_walk mem now ctx.mctx_list []

/-- The `while (expired)` loop of `pxy_thrmgr_timer_cb`: the records passed to
`pxy_conn_free_all`, in the order of the calls. -/
def timer_cb_walk : List Addr → List Addr
  | [] => []
  | expired :: next => expired :: timer_cb_walk next

/-- Embedding of `pxy_thrmgr_timer_cb`: the records handed to
`pxy_conn_free_all`, and the worker context with its tick counter updated. -/
def pxy_thrmgr_timer_cb (mem : Addr → proxy_conn_meta_ctx_t) (ctx : pxy_thr_ctx_t)
    (now : Int) : List Addr × pxy_thr_ctx_t :=
  let expired := pxy_thrmgr_get_thr_expired_conns mem ctx now
  let freed := timer_cb_walk expired
  let timeout_count := ctx.timeout_count + 1
  if timeout_count * THR_TIMER_TIMEOUT > THR_TIMER_PRINT_INFO_TIMEOUT then
    (freed, { ctx with timeout_count := 0 })
  else (freed, { ctx with timeout_count := timeout_count })

end Pxythrmgr

namespace SrcPxythrmgr

/-- Connection context (`pxy_conn_ctx_t`) of src/src/pxythrmgr.c, the fields
that `pxy_thrmgr_attach` writes. -/
structure pxy_conn_ctx_t where
  thr : Option Nat
  evbase : Option Nat
  dnsbase : Option Nat
deriving DecidableEq, Repr

/-- Worker context (`pxy_thr_ctx_t`) of src/src/pxythrmgr.c. -/
structure pxy_thr_ctx_t where
  evbase : Option Nat
  dnsbase : Option Nat
  load : Nat
  running : Int
  conns : List Addr
  thridx : Int
  timeout_count : Int
deriving DecidableEq, Repr

/-- The pool (`tmctx->thr`) together with the store of connection contexts. -/
structure State where
  thr : List pxy_thr_ctx_t
  conn : Addr → pxy_conn_ctx_t

/-- Modelled from the spec: `pxy_thr_get_load` is defined outside src/; it is
the read of the worker's load counter "under that worker's own lock, a
constant-time read". -/
def pxy_thr_get_load (tctx : pxy_thr_ctx_t) : Nat := tctx.load

/-- The loop `for (idx = 1; idx < num_thr; idx++)` of `pxy_thrmgr_attach`. -/
def attach_scan : List pxy_thr_ctx_t → Nat → Nat → Nat → Nat
  | [], _, thridx, _ => thridx
  | t :: ts, idx, thridx, minload =>
    let thrload := pxy_thr_get_load t
    if minload > thrload then attach_scan ts (idx + 1) idx thrload
    else attach_scan ts (idx + 1) thridx minload

/-- Embedding of `pxy_thrmgr_attach` (src/src/pxythrmgr.c). -/
def pxy_thrmgr_attach (s : State) (ctx : Addr) : Option State :=
  match s.thr with
  | [] => none
  | t0 :: rest =>
    let minload := pxy_thr_get_load t0
    let thridx := attach_scan rest 1 0 minload
    match s.thr[thridx]? with
    | none => none
    | some t =>
      let c := s.conn ctx
      let c1 : pxy_conn_ctx_t := { c with thr := some thridx, evbase := t.evbase, dnsbase := t.dnsbase }
      some { s with conn := Function.update s.conn ctx c1 }

end SrcPxythrmgr

/-! ## Auxiliary definitions for the statements -/

/-- The selection loop over the bare load values. -/
def scanLoads : List Nat → Nat → Nat → Nat → Nat
  | [], _, thridx, _ => thridx
  | x :: xs, idx, thridx, minload =>
    if minload > x then scanLoads xs (idx + 1) idx x
    else scanLoads xs (idx + 1) thridx minload

/-- Index `i` holds a minimum of `loads`, and every earlier entry is strictly
larger. -/
def FirstMin (loads : List Nat) (i : Nat) : Prop :=
  ∃ m, loads[i]? = some m ∧ (∀ (j x : Nat), loads[j]? = some x → m ≤ x) ∧
    (∀ (j x : Nat), j < i → loads[j]? = some x → m < x)

/-- A worker of src/pxythrmgr.c as `pxy_thrmgr_run` leaves it, with the given
load. -/
def Pxythrmgr.workerOfLoad (load : Nat) : Pxythrmgr.pxy_thr_ctx_t :=
  { evbase := some 0, dnsbase := none, load := load, running := 1, mctx_list := [],
    thridx := 0, timeout_count := 0 }

/-- A worker of src/src/pxythrmgr.c as `pxy_thrmgr_run` leaves it, with the
given load. -/
def SrcPxythrmgr.workerOfLoad (load : Nat) : SrcPxythrmgr.pxy_thr_ctx_t :=
  { evbase := some 0, dnsbase := none, load := load, running := 1, conns := [],
    thridx := 0, timeout_count := 0 }

/-- A connection record of src/pxythrmgr.c before it is attached. -/
def Pxythrmgr.freshRecord (uuid : uuid_t) : Pxythrmgr.proxy_conn_meta_ctx_t :=
  { uuid := uuid, fd := 0, child_fd := 0, access_time := 0, parent_ctx := none,
    child_list := none, thr := none, evbase := none, dnsbase := none }

/-- A connection context of src/src/pxythrmgr.c before it is attached. -/
def SrcPxythrmgr.freshConn : SrcPxythrmgr.pxy_conn_ctx_t :=
  { thr := none, evbase := none, dnsbase := none }

/-- A pool of src/pxythrmgr.c with loads `[3,1,4,1,5]`, empty registries and
all records unattached. -/
def Pxythrmgr.exampleState : Pxythrmgr.State :=
  ⟨[3, 1, 4, 1, 5].map Pxythrmgr.workerOfLoad, fun a => Pxythrmgr.freshRecord a⟩

/-- A pool of src/src/pxythrmgr.c with loads `[3,1,4,1,5]`, empty registries
and all connection contexts unattached. -/
def SrcPxythrmgr.exampleState : SrcPxythrmgr.State :=
  ⟨[3, 1, 4, 1, 5].map SrcPxythrmgr.workerOfLoad, fun _ => SrcPxythrmgr.freshConn⟩

/-- The registry `head` with the first node whose UUID is that of `node`
unlinked: `l` is `head` without that node, the other nodes in their order. -/
def UnlinkedFirst (mem : Addr → Pxythrmgr.proxy_conn_meta_ctx_t) (node : Addr)
    (head l : List Addr) : Prop :=
  ∃ pre x post, head = pre ++ x :: post ∧ (mem x).uuid = (mem node).uuid ∧
    (∀ y ∈ pre, (mem y).uuid ≠ (mem node).uuid) ∧ l = pre ++ post

/-- A pool of src/pxythrmgr.c of two workers with load `0` and empty
registries, all records unattached. -/
def Pxythrmgr.idleState : Pxythrmgr.State :=
  ⟨[0, 0].map Pxythrmgr.workerOfLoad, fun a => Pxythrmgr.freshRecord a⟩

/-- A pool of src/pxythrmgr.c of one worker whose registry holds record `3`
only, while all records refer to that worker. -/
def Pxythrmgr.absentState : Pxythrmgr.State :=
  ⟨[{ Pxythrmgr.workerOfLoad 2 with mctx_list := [3] }],
   fun a => { Pxythrmgr.freshRecord a with thr := some 0 }⟩

/-- A pool of src/pxythrmgr.c of two workers; worker `1` has load `2` and the
registry `[7, 3]`, and record `7`, which refers to worker `1`, has a child. -/
def Pxythrmgr.parentState : Pxythrmgr.State :=
  ⟨[Pxythrmgr.workerOfLoad 5, { Pxythrmgr.workerOfLoad 2 with mctx_list := [7, 3] }],
   fun a => { Pxythrmgr.freshRecord a with
                thr := some 1, child_list := if a = 7 then some 70 else none }⟩

/-- The values of a `time_t`. -/
def time_t_range (x : Int) : Prop := -(2 ^ 63) ≤ x ∧ x < 2 ^ 63

/-- A pool of src/pxythrmgr.c of one worker with the registry `[1, 2, 3, 4]`:
record `a` was last accessed at time `100 - 10 * a`, and record `4` has a
child. -/
def Pxythrmgr.sweepState : Pxythrmgr.State :=
  ⟨[{ Pxythrmgr.workerOfLoad 4 with mctx_list := [1, 2, 3, 4] }],
   fun a => { Pxythrmgr.freshRecord a with
                thr := some 0, access_time := 100 - 10 * (a : Int),
                child_list := if a = 4 then some 40 else none }⟩

/-- Write of the fields `parent_ctx` and `child_list` of a record by the
connection code (pxyconn.c, outside src/), which creates and releases the
parent and child contexts of a record between the calls of the thread
manager. -/
def Pxythrmgr.set_links (s : Pxythrmgr.State) (mctx : Addr)
    (parent_ctx child_list : Option Addr) : Pxythrmgr.State :=
  let m := s.mctx mctx
  { s with
    mctx := Function.update s.mctx mctx
      { m with parent_ctx := parent_ctx, child_list := child_list } }

/-- A call of the thread manager by the connection code, or a write of the
link fields of a record between two calls. -/
inductive Pxythrmgr.Call where
  | attach (mctx : Addr)
  | attach_child (mctx : Addr)
  | detach (mctx : Addr)
  | detach_child (mctx : Addr)
  | set_links (mctx : Addr) (parent_ctx child_list : Option Addr)
deriving DecidableEq, Repr

/-- One call, run on the pool. -/
def Pxythrmgr.step (s : Pxythrmgr.State) : Pxythrmgr.Call → Option Pxythrmgr.State
  | .attach mctx => Pxythrmgr.pxy_thrmgr_attach s mctx
  | .attach_child mctx => Pxythrmgr.pxy_thrmgr_attach_child s mctx
  | .detach mctx => Pxythrmgr.pxy_thrmgr_detach s mctx
  | .detach_child mctx => Pxythrmgr.pxy_thrmgr_detach_child s mctx
  | .set_links mctx parent_ctx child_list =>
    some (Pxythrmgr.set_links s mctx parent_ctx child_list)

/-- A sequence of calls, run on the pool from left to right. -/
def Pxythrmgr.run (s : Pxythrmgr.State) : List Pxythrmgr.Call → Option Pxythrmgr.State
  | [] => some s
  | c :: cs => (Pxythrmgr.step s c).bind (fun s' => Pxythrmgr.run s' cs)

/-- The sessions of a run: the records that have been attached, the records
whose top-level session is attached and not yet detached, and, once for each
child session that is attached and not yet detached, the record it belongs
to. -/
structure Pxythrmgr.Sessions where
  attached : List Addr
  top : List Addr
  child : List Addr
deriving DecidableEq, Repr

/-- The sessions after one more call; `none` when the call breaks the
discipline: a record is attached once, as a new record; a child session is
attached to a record that has been attached; a top-level or child session is
detached only while it is attached and not yet detached. -/
def Pxythrmgr.track (g : Pxythrmgr.Sessions) : Pxythrmgr.Call → Option Pxythrmgr.Sessions
  | .attach mctx =>
    if mctx ∈ g.attached then none
    else some { g with attached := mctx :: g.attached, top := mctx :: g.top }
  | .attach_child mctx =>
    if mctx ∈ g.attached then some { g with child := mctx :: g.child } else none
  | .detach mctx =>
    if mctx ∈ g.top then some { g with top := g.top.erase mctx } else none
  | .detach_child mctx =>
    if mctx ∈ g.child then some { g with child := g.child.erase mctx } else none
  | .set_links _ _ _ => some g

/-- The sessions after a sequence of calls that keeps the discipline. -/
def Pxythrmgr.trackAll (g : Pxythrmgr.Sessions) : List Pxythrmgr.Call → Option Pxythrmgr.Sessions
  | [] => some g
  | c :: cs => (Pxythrmgr.track g c).bind (fun g' => Pxythrmgr.trackAll g' cs)

/-- The number of sessions, among the given ones, whose record refers to
worker `i`. -/
def Pxythrmgr.sessionsOn (mem : Addr → Pxythrmgr.proxy_conn_meta_ctx_t) (live : List Addr)
    (i : Nat) : Nat :=
  live.countP (fun a => decide ((mem a).thr = some i))

/-- The load counter of every worker is the number of live sessions of the
records that refer to it, and every attached record refers to a worker. -/
structure Pxythrmgr.LoadInv (s : Pxythrmgr.State) (g : Pxythrmgr.Sessions) : Prop where
  thr_valid : ∀ a ∈ g.attached, ∃ i, (s.mctx a).thr = some i ∧ i < s.thr.length
  live_attached : ∀ a ∈ g.top ++ g.child, a ∈ g.attached
  load_eq : ∀ (i : Nat) (t : Pxythrmgr.pxy_thr_ctx_t), s.thr[i]? = some t →
    t.load = Pxythrmgr.sessionsOn s.mctx (g.top ++ g.child) i

/-- A run on two records: record `7` is attached, gets a child session, its
parent is detached while the child is there, and the child is detached last;
record `8` is attached in between and stays. -/
def Pxythrmgr.exampleCalls : List Pxythrmgr.Call :=
  [.attach 7, .set_links 7 (some 1) (some 70), .attach_child 7, .attach 8, .detach 7,
   .set_links 7 none none, .detach_child 7]

/-! ## Startup: `pxy_thrmgr_run`

The calls of `pxy_thrmgr_run` that take or give back a resource, or start,
cancel or join a thread, are recorded in a trace, in the order of the calls.
Whether an allocation succeeds is decided by the environment (`RunEnv`).  A
handle is `some` value when it is not NULL.  The wait
`while (!ctx->thr[idx]->running) sched_yield();` is taken to end: the started
thread sets the flag. -/

/-- The resources that `pxy_thrmgr_run` allocates or initialises for one worker
slot: the worker context (`malloc`), the event base (`event_base_new`), the
resolver base (`evdns_base_new`), and in src/src/pxythrmgr.c the prepared
statement (`sqlite3_prepare_v2`) and the mutex (`pthread_mutex_init`). -/
inductive RunRes where
  | ctx
  | evbase
  | dnsbase
  | get_user
  | mutex
deriving DecidableEq, Repr

/-- One recorded call of `pxy_thrmgr_run`.  `alloc idx r`: resource `r` of slot
`idx` was allocated or initialised with success.  `release idx r`: the call
that gives back resource `r` of slot `idx` (`free`, `event_base_free`,
`evdns_base_free`, `sqlite3_finalize` of a handle that is not NULL,
`pthread_mutex_destroy`). -/
inductive RunEvent where
  | alloc (idx : Nat) (r : RunRes)
  | release (idx : Nat) (r : RunRes)
  | pool_mutex_init
  | pool_mutex_destroy
  | array_alloc
  | array_free
  | thread_create (idx : Nat)
  | thread_cancel (idx : Nat)
  | thread_join (idx : Nat)
deriving DecidableEq, Repr

/-- What `pxy_thrmgr_run` gets from its surroundings: whether a resolver base
is needed (`opts_has_dns_spec` / `global_has_dns_spec`), whether the user
database is used (`user_auth || global_has_userauth_spec`), whether the
`malloc` of the worker array succeeds, whether the allocation of resource `r`
for slot `idx` succeeds, and whether `pthread_create` for slot `idx`
succeeds. -/
structure RunEnv where
  dns : Bool
  userauth : Bool
  array_ok : Bool
  alloc_ok : Nat → RunRes → Bool
  create_ok : Nat → Bool

/-- The first loop of `pxy_thrmgr_run`, `for (idx = 0; idx < num_thr; idx++)`,
with `fuel` iterations left.  `init idx` is the loop body for slot `idx`: the
new value of `ctx->thr[idx]`, the recorded calls, and whether the body ran to
its end (otherwise it left by `goto leave`).  The result is the worker array,
the trace, and the `idx` of the `goto leave`, if any. -/
def run_init_loop {σ : Type} (init : Nat → Option σ × List RunEvent × Bool) :
    Nat → Nat → List (Option σ) → List RunEvent →
      List (Option σ) × List RunEvent × Option Nat
  | 0, _, thr, trace => (thr, trace, none)
  | fuel + 1, idx, thr, trace =>
    match init idx with
    | (slot, evs, true) => run_init_loop init fuel (idx + 1) (thr.set idx slot) (trace ++ evs)
    | (slot, evs, false) => (thr.set idx slot, trace ++ evs, some idx)

/-- The second loop of `pxy_thrmgr_run`, which starts the threads, with `fuel`
iterations left; `started` marks the slot of a started thread as running.  The
result is the worker array, the trace, and the `idx` of the
`goto leave_thr`, if any. -/
def run_thread_loop {σ : Type} (env : RunEnv) (started : σ → σ) :
    Nat → Nat → List (Option σ) → List RunEvent →
      List (Option σ) × List RunEvent × Option Nat
  | 0, _, thr, trace => (thr, trace, none)
  | fuel + 1, idx, thr, trace =>
    if env.create_ok idx then
      run_thread_loop env started fuel (idx + 1)
        (thr.set idx ((thr.getD idx none).map started)) (trace ++ [RunEvent.thread_create idx])
    else (thr, trace, some idx)

/-- The loop at `leave_thr`, entered with `idx` already decremented: `n` is
`idx + 1`. -/
def run_cancel_loop : Nat → List RunEvent
  | 0 => []
  | idx + 1 => [RunEvent.thread_cancel idx, RunEvent.thread_join idx] ++ run_cancel_loop idx

/-- The loop at `leave`, `while (idx >= 0)`: `n` is `idx + 1`, and
`leave idx slot` gives the calls that release slot `idx`. -/
def run_leave_loop {σ : Type} (leave : Nat → Option σ → List RunEvent)
    (thr : List (Option σ)) : Nat → List RunEvent
  | 0 => []
  | idx + 1 => leave idx (thr.getD idx none) ++ run_leave_loop leave thr idx

/-- The result of `pxy_thrmgr_run`: the returned value, `ctx->thr` (`none` is
NULL) and the trace. -/
structure RunResult (σ : Type) where
  ret : Int
  thr : Option (List (Option σ))
  trace : List RunEvent

/-- A worker context of src/pxythrmgr.c after `memset(ctx->thr[idx], 0, ...)`. -/
def Pxythrmgr.zeroed : Pxythrmgr.pxy_thr_ctx_t :=
  { evbase := none, dnsbase := none, load := 0, running := 0, mctx_list := [],
    thridx := 0, timeout_count := 0 }

/-- Body of the first loop of `pxy_thrmgr_run` (src/pxythrmgr.c) for slot
`idx`. -/
def Pxythrmgr.run_init_slot (env : RunEnv) (idx : Nat) :
    Option Pxythrmgr.pxy_thr_ctx_t × List RunEvent × Bool :=
  if env.alloc_ok idx .ctx then
    if env.alloc_ok idx .evbase then
      if env.dns then
        if env.alloc_ok idx .dnsbase then
          (some { Pxythrmgr.zeroed with
                  evbase := some idx, dnsbase := some idx, thridx := (idx : Int) },
           [.alloc idx .ctx, .alloc idx .evbase, .alloc idx .dnsbase], true)
        else
          (some { Pxythrmgr.zeroed with evbase := some idx },
           [.alloc idx .ctx, .alloc idx .evbase], false)
      else
        (some { Pxythrmgr.zeroed with evbase := some idx, thridx := (idx : Int) },
         [.alloc idx .ctx, .alloc idx .evbase], true)
    else (some Pxythrmgr.zeroed, [.alloc idx .ctx], false)
  else (none, [], false)

/-- Body of the loop at `leave` (src/pxythrmgr.c) for slot `idx`. -/
def Pxythrmgr.run_leave_slot (idx : Nat) : Option Pxythrmgr.pxy_thr_ctx_t → List RunEvent
  | none => []
  | some t =>
    (if t.dnsbase.isSome then [RunEvent.release idx .dnsbase] else []) ++
    (if t.evbase.isSome then [RunEvent.release idx .evbase] else []) ++
    [RunEvent.release idx .ctx]

/-- Embedding of `pxy_thrmgr_run` (src/pxythrmgr.c). -/
def Pxythrmgr.pxy_thrmgr_run (env : RunEnv) (num_thr : Nat) :
    RunResult Pxythrmgr.pxy_thr_ctx_t :=
  if env.array_ok then
    match run_init_loop (Pxythrmgr.run_init_slot env) num_thr 0
        (List.replicate num_thr none) [.pool_mutex_init, .array_alloc] with
    | (thr, trace, some idx) =>
      { ret := -1, thr := none,
        trace := trace ++ run_leave_loop Pxythrmgr.run_leave_slot thr (idx + 1) ++
          [.pool_mutex_destroy, .array_free] }
    | (thr, trace, none) =>
      match run_thread_loop env (fun t => { t with running := 1 }) num_thr 0 thr trace with
      | (thr, trace, none) => { ret := 0, thr := some thr, trace := trace }
      | (thr, trace, some idx) =>
        { ret := -1, thr := none,
          trace := trace ++ run_cancel_loop idx ++
            run_leave_loop Pxythrmgr.run_leave_slot thr num_thr ++
            [.pool_mutex_destroy, .array_free] }
  else { ret := -1, thr := none, trace := [.pool_mutex_init, .pool_mutex_destroy] }

/-- Worker context of src/src/pxythrmgr.c with the handle of the prepared
statement `get_user`, which `pxy_thrmgr_run` sets. -/
structure SrcPxythrmgr.pxy_thr_run_ctx_t extends SrcPxythrmgr.pxy_thr_ctx_t where
  get_user : Option Nat
deriving DecidableEq, Repr

/-- A worker context of src/src/pxythrmgr.c after
`memset(ctx->thr[idx], 0, ...)`. -/
def SrcPxythrmgr.zeroed : SrcPxythrmgr.pxy_thr_run_ctx_t :=
  { evbase := none, dnsbase := none, load := 0, running := 0, conns := [],
    thridx := 0, timeout_count := 0, get_user := none }

/-- Body of the first loop of `pxy_thrmgr_run` (src/src/pxythrmgr.c) for slot
`idx`. -/
def SrcPxythrmgr.run_init_slot (env : RunEnv) (idx : Nat) :
    Option SrcPxythrmgr.pxy_thr_run_ctx_t × List RunEvent × Bool :=
  if env.alloc_ok idx .ctx then
    if env.alloc_ok idx .evbase then
      let dnsbase : Option Nat := if env.dns then some idx else none
      let dns_evs : List RunEvent := if env.dns then [.alloc idx .dnsbase] else []
      if env.dns && !env.alloc_ok idx .dnsbase then
        (some { SrcPxythrmgr.zeroed with evbase := some idx },
         [.alloc idx .ctx, .alloc idx .evbase], false)
      else if env.userauth && !env.alloc_ok idx .get_user then
        (some { SrcPxythrmgr.zeroed with
                evbase := some idx, dnsbase := dnsbase, thridx := (idx : Int) },
         [.alloc idx .ctx, .alloc idx .evbase] ++ dns_evs, false)
      else
        let get_user : Option Nat := if env.userauth then some idx else none
        let user_evs : List RunEvent := if env.userauth then [.alloc idx .get_user] else []
        if env.alloc_ok idx .mutex then
          (some { SrcPxythrmgr.zeroed with
                  evbase := some idx, dnsbase := dnsbase, thridx := (idx : Int),
                  get_user := get_user },
           [.alloc idx .ctx, .alloc idx .evbase] ++ dns_evs ++ user_evs ++
             [.alloc idx .mutex], true)
        else
          (some { SrcPxythrmgr.zeroed with
                  evbase := some idx, dnsbase := dnsbase, thridx := (idx : Int),
                  get_user := get_user },
           [.alloc idx .ctx, .alloc idx .evbase] ++ dns_evs ++ user_evs, false)
    else (some SrcPxythrmgr.zeroed, [.alloc idx .ctx], false)
  else (none, [], false)

/-- Body of the loop at `leave` (src/src/pxythrmgr.c) for slot `idx`. -/
def SrcPxythrmgr.run_leave_slot (env : RunEnv) (idx : Nat) :
    Option SrcPxythrmgr.pxy_thr_run_ctx_t → List RunEvent
  | none => []
  | some t =>
    (if t.dnsbase.isSome then [RunEvent.release idx .dnsbase] else []) ++
    (if t.evbase.isSome then [RunEvent.release idx .evbase] else []) ++
    (if env.userauth && t.get_user.isSome then [RunEvent.release idx .get_user] else []) ++
    [RunEvent.release idx .mutex, RunEvent.release idx .ctx]

/-- Embedding of `pxy_thrmgr_run` (src/src/pxythrmgr.c). -/
def SrcPxythrmgr.pxy_thrmgr_run (env : RunEnv) (num_thr : Nat) :
    RunResult SrcPxythrmgr.pxy_thr_run_ctx_t :=
  if env.array_ok then
    match run_init_loop (SrcPxythrmgr.run_init_slot env) num_thr 0
        (List.replicate num_thr none) [.array_alloc] with
    | (thr, trace, some idx) =>
      { ret := -1, thr := none,
        trace := trace ++ run_leave_loop (SrcPxythrmgr.run_leave_slot env) thr (idx + 1) ++
          [.array_free] }
    | (thr, trace, none) =>
      match run_thread_loop env (fun t => { t with running := 1 }) num_thr 0 thr trace with
      | (thr, trace, none) => { ret := 0, thr := some thr, trace := trace }
      | (thr, trace, some idx) =>
        { ret := -1, thr := none,
          trace := trace ++ run_cancel_loop idx ++
            run_leave_loop (SrcPxythrmgr.run_leave_slot env) thr num_thr ++ [.array_free] }
  else { ret := -1, thr := none, trace := [] }

/-- Every allocation that `pxy_thrmgr_run` of src/pxythrmgr.c needs for slot
`idx` succeeds. -/
def Pxythrmgr.run_slot_ok (env : RunEnv) (idx : Nat) : Bool :=
  env.alloc_ok idx .ctx && env.alloc_ok idx .evbase && (!env.dns || env.alloc_ok idx .dnsbase)

/-- Every allocation and initialisation that `pxy_thrmgr_run` of
src/src/pxythrmgr.c needs for slot `idx` succeeds. -/
def SrcPxythrmgr.run_slot_ok (env : RunEnv) (idx : Nat) : Bool :=
  env.alloc_ok idx .ctx && env.alloc_ok idx .evbase &&
    (!env.dns || env.alloc_ok idx .dnsbase) &&
    (!env.userauth || env.alloc_ok idx .get_user) && env.alloc_ok idx .mutex

/-- Surroundings in which `event_base_new` fails for slot `1` and every other
allocation succeeds; no resolver base and no user database are needed. -/
def evbaseFailsAtSlot1 : RunEnv :=
  { dns := false, userauth := false, array_ok := true,
    alloc_ok := fun idx r => !(idx == 1 && r == RunRes.evbase),
    create_ok := fun _ => true }

/-! ## Theorems -/

/-! ### Least-loaded selection -/

theorem scanLoads_firstMin (xs : List Nat) :
    ∀ (pre : List Nat) (thridx minload : Nat),
      pre[thridx]? = some minload →
      (∀ (j x : Nat), pre[j]? = some x → minload ≤ x) →
      (∀ (j x : Nat), j < thridx → pre[j]? = some x → minload < x) →
      FirstMin (pre ++ xs) (scanLoads xs pre.length thridx minload) := by
  induction xs with
  | nil =>
    intro pre thridx minload h1 h2 h3
    simp only [scanLoads, List.append_nil]
    exact ⟨minload, h1, h2, h3⟩
  | cons x xs ih =>
    intro pre thridx minload h1 h2 h3
    have hlt : thridx < pre.length := by
      by_contra hc
      rw [List.getElem?_eq_none (Nat.le_of_not_lt hc)] at h1
      exact Option.noConfusion h1
    have hsplit : pre ++ x :: xs = (pre ++ [x]) ++ xs := by simp
    have hlen : (pre ++ [x]).length = pre.length + 1 := by simp
    have hget : ∀ (j y : Nat), (pre ++ [x])[j]? = some y →
        (j < pre.length ∧ pre[j]? = some y) ∨ (j = pre.length ∧ y = x) := by
      intro j y hj
      by_cases hjl : j < pre.length
      · left
        rw [List.getElem?_append_left hjl] at hj
        exact ⟨hjl, hj⟩
      · right
        have hle : pre.length ≤ j := Nat.le_of_not_lt hjl
        rw [List.getElem?_append_right hle] at hj
        rcases Nat.eq_or_lt_of_le hle with he | hl
        · rw [← he] at hj
          simp at hj
          exact ⟨he.symm, hj.symm⟩
        · have : 1 ≤ j - pre.length := by omega
          rw [List.getElem?_eq_none (by simpa using this)] at hj
          exact Option.noConfusion hj
    unfold scanLoads
    rw [hsplit]
    by_cases hc : minload > x
    · rw [if_pos hc]
      have h := ih (pre ++ [x]) pre.length x (by simp)
        (by
          intro j y hj
          rcases hget j y hj with ⟨_, hp⟩ | ⟨_, hy⟩
          · have := h2 j y hp
            omega
          · omega)
        (by
          intro j y hjl hj
          rcases hget j y hj with ⟨_, hp⟩ | ⟨hj2, _⟩
          · have := h2 j y hp
            omega
          · omega)
      rw [hlen] at h
      exact h
    · rw [if_neg hc]
      have h := ih (pre ++ [x]) thridx minload
        (by rw [List.getElem?_append_left hlt]; exact h1)
        (by
          intro j y hj
          rcases hget j y hj with ⟨_, hp⟩ | ⟨_, hy⟩
          · exact h2 j y hp
          · omega)
        (by
          intro j y hjl hj
          rcases hget j y hj with ⟨_, hp⟩ | ⟨hj2, _⟩
          · exact h3 j y hjl hp
          · omega)
      rw [hlen] at h
      exact h

theorem scanLoads_head_firstMin (x : Nat) (xs : List Nat) :
    FirstMin (x :: xs) (scanLoads xs 1 0 x) := by
  have h := scanLoads_firstMin xs [x] 0 x (by simp)
    (by
      intro j y hj
      cases j with
      | zero => simp at hj; omega
      | succ j => simp at hj)
    (by intro j y hj; omega)
  simpa using h

theorem FirstMin_lt {loads : List Nat} {i : Nat} (h : FirstMin loads i) : i < loads.length := by
  obtain ⟨m, hm, _⟩ := h
  by_contra hc
  rw [List.getElem?_eq_none (Nat.le_of_not_lt hc)] at hm
  exact Option.noConfusion hm

theorem attach_scan_eq_scanLoads (ts : List Pxythrmgr.pxy_thr_ctx_t) :
    ∀ idx thridx minload, Pxythrmgr.attach_scan ts idx thridx minload
      = scanLoads (ts.map (fun t => t.load)) idx thridx minload := by
  induction ts with
  | nil => intro idx thridx minload; rfl
  | cons t ts ih =>
    intro idx thridx minload
    simp only [Pxythrmgr.attach_scan, List.map_cons, scanLoads, ih]

theorem src_attach_scan_eq_scanLoads (ts : List SrcPxythrmgr.pxy_thr_ctx_t) :
    ∀ idx thridx minload, SrcPxythrmgr.attach_scan ts idx thridx minload
      = scanLoads (ts.map (fun t => t.load)) idx thridx minload := by
  induction ts with
  | nil => intro idx thridx minload; rfl
  | cons t ts ih =>
    intro idx thridx minload
    simp only [SrcPxythrmgr.attach_scan, SrcPxythrmgr.pxy_thr_get_load, List.map_cons,
      scanLoads, ih]

/-- C1: in a pool with at least one worker, `pxy_thrmgr_attach` of either source
file assigns the record to the worker at the index `i` whose load is a minimum
of all loads and such that every worker at a lower index has a strictly larger
load; for the loads `[3,1,4,1,5]` that index is `1`. -/
theorem attach_selects_first_least_loaded
    (s : Pxythrmgr.State) (mctx : Addr) (s2 : SrcPxythrmgr.State) (ctx : Addr)
    (h : s.thr ≠ []) (h2 : s2.thr ≠ []) :
    (∃ i s', Pxythrmgr.pxy_thrmgr_attach s mctx = some s' ∧ (s'.mctx mctx).thr = some i ∧
        FirstMin (s.thr.map (fun t => t.load)) i) ∧
    (∃ i s', SrcPxythrmgr.pxy_thrmgr_attach s2 ctx = some s' ∧ (s'.conn ctx).thr = some i ∧
        FirstMin (s2.thr.map (fun t => t.load)) i) ∧
    (∀ mem, (Pxythrmgr.pxy_thrmgr_attach
        ⟨[3, 1, 4, 1, 5].map Pxythrmgr.workerOfLoad, mem⟩ mctx).map
          (fun s' => (s'.mctx mctx).thr) = some (some 1)) ∧
    (∀ mem, (SrcPxythrmgr.pxy_thrmgr_attach
        ⟨[3, 1, 4, 1, 5].map SrcPxythrmgr.workerOfLoad, mem⟩ ctx).map
          (fun s' => (s'.conn ctx).thr) = some (some 1)) := by
  refine ⟨?_, ?_, ?_, ?_⟩
  · obtain ⟨thr, mem⟩ := s
    cases thr with
    | nil => exact absurd rfl h
    | cons t0 rest =>
      have hfm := scanLoads_head_firstMin t0.load (rest.map (fun t => t.load))
      have hlt := FirstMin_lt hfm
      rw [← attach_scan_eq_scanLoads] at hfm hlt
      simp only [List.length_cons, List.length_map] at hlt
      have hsome : (t0 :: rest)[Pxythrmgr.attach_scan rest 1 0 t0.load]? =
          some ((t0 :: rest)[Pxythrmgr.attach_scan rest 1 0 t0.load]) :=
        List.getElem?_eq_getElem (by simpa using hlt)
      refine ⟨Pxythrmgr.attach_scan rest 1 0 t0.load, ?_⟩
      simp only [Pxythrmgr.pxy_thrmgr_attach, hsome]
      exact ⟨_, rfl, by simp, by simpa using hfm⟩
  · obtain ⟨thr, mem⟩ := s2
    cases thr with
    | nil => exact absurd rfl h2
    | cons t0 rest =>
      have hfm := scanLoads_head_firstMin t0.load (rest.map (fun t => t.load))
      have hlt := FirstMin_lt hfm
      rw [← src_attach_scan_eq_scanLoads] at hfm hlt
      simp only [List.length_cons, List.length_map] at hlt
      have hsome : (t0 :: rest)[SrcPxythrmgr.attach_scan rest 1 0 t0.load]? =
          some ((t0 :: rest)[SrcPxythrmgr.attach_scan rest 1 0 t0.load]) :=
        List.getElem?_eq_getElem (by simpa using hlt)
      refine ⟨SrcPxythrmgr.attach_scan rest 1 0 t0.load, ?_⟩
      simp only [SrcPxythrmgr.pxy_thrmgr_attach, SrcPxythrmgr.pxy_thr_get_load, hsome]
      exact ⟨_, rfl, by simp, by simpa using hfm⟩
  · intro mem
    simp [Pxythrmgr.pxy_thrmgr_attach, Pxythrmgr.attach_scan, Pxythrmgr.workerOfLoad]
  · intro mem
    simp [SrcPxythrmgr.pxy_thrmgr_attach, SrcPxythrmgr.attach_scan,
      SrcPxythrmgr.pxy_thr_get_load, SrcPxythrmgr.workerOfLoad]

/-- Witness of C1: the theorem applied to the pools with loads `[3,1,4,1,5]`. -/
theorem attach_selects_first_least_loaded_witness :
    Pxythrmgr.exampleState.thr ≠ [] ∧ SrcPxythrmgr.exampleState.thr ≠ [] ∧
    (∃ i s', Pxythrmgr.pxy_thrmgr_attach Pxythrmgr.exampleState 7 = some s' ∧
        (s'.mctx 7).thr = some i ∧
        FirstMin (Pxythrmgr.exampleState.thr.map (fun t => t.load)) i) ∧
    (∃ i s', SrcPxythrmgr.pxy_thrmgr_attach SrcPxythrmgr.exampleState 7 = some s' ∧
        (s'.conn 7).thr = some i ∧
        FirstMin (SrcPxythrmgr.exampleState.thr.map (fun t => t.load)) i) :=
  have h1 : Pxythrmgr.exampleState.thr ≠ [] := by simp [Pxythrmgr.exampleState]
  have h2 : SrcPxythrmgr.exampleState.thr ≠ [] := by simp [SrcPxythrmgr.exampleState]
  have h := attach_selects_first_least_loaded Pxythrmgr.exampleState 7
    SrcPxythrmgr.exampleState 7 h1 h2
  ⟨h1, h2, h.1, h.2.1⟩

/-! ### Effect of attach -/

theorem attach_some (s : Pxythrmgr.State) (mctx : Addr) (h : s.thr ≠ []) :
    ∃ i t, s.thr[i]? = some t ∧ FirstMin (s.thr.map (fun t => t.load)) i ∧
      Pxythrmgr.pxy_thrmgr_attach s mctx = some
        { thr := s.thr.set i
            { t with load := (t.load + 1) % SIZE_MOD, mctx_list := mctx :: t.mctx_list }
          mctx := Function.update s.mctx mctx
            { s.mctx mctx with thr := some i, evbase := t.evbase, dnsbase := t.dnsbase } } := by
  obtain ⟨thr, mem⟩ := s
  cases thr with
  | nil => exact absurd rfl h
  | cons t0 rest =>
    have hfm := scanLoads_head_firstMin t0.load (rest.map (fun t => t.load))
    have hlt := FirstMin_lt hfm
    rw [← attach_scan_eq_scanLoads] at hfm hlt
    simp only [List.length_cons, List.length_map] at hlt
    have hsome : (t0 :: rest)[Pxythrmgr.attach_scan rest 1 0 t0.load]? =
        some ((t0 :: rest)[Pxythrmgr.attach_scan rest 1 0 t0.load]) :=
      List.getElem?_eq_getElem (by simpa using hlt)
    refine ⟨Pxythrmgr.attach_scan rest 1 0 t0.load, _, hsome, by simpa using hfm, ?_⟩
    simp only [Pxythrmgr.pxy_thrmgr_attach, hsome]

theorem src_attach_some (s : SrcPxythrmgr.State) (ctx : Addr) (h : s.thr ≠ []) :
    ∃ i t, s.thr[i]? = some t ∧ FirstMin (s.thr.map (fun t => t.load)) i ∧
      SrcPxythrmgr.pxy_thrmgr_attach s ctx = some
        { s with conn := Function.update s.conn ctx ⟨some i, t.evbase, t.dnsbase⟩ } := by
  obtain ⟨thr, mem⟩ := s
  cases thr with
  | nil => exact absurd rfl h
  | cons t0 rest =>
    have hfm := scanLoads_head_firstMin t0.load (rest.map (fun t => t.load))
    have hlt := FirstMin_lt hfm
    rw [← src_attach_scan_eq_scanLoads] at hfm hlt
    simp only [List.length_cons, List.length_map] at hlt
    have hsome : (t0 :: rest)[SrcPxythrmgr.attach_scan rest 1 0 t0.load]? =
        some ((t0 :: rest)[SrcPxythrmgr.attach_scan rest 1 0 t0.load]) :=
      List.getElem?_eq_getElem (by simpa using hlt)
    refine ⟨SrcPxythrmgr.attach_scan rest 1 0 t0.load, _, hsome, by simpa using hfm, ?_⟩
    simp only [SrcPxythrmgr.pxy_thrmgr_attach, SrcPxythrmgr.pxy_thr_get_load, hsome]

theorem getElem?_lt_length {α : Type} {l : List α} {i : Nat} {x : α} (h : l[i]? = some x) :
    i < l.length := by
  by_contra hc
  rw [List.getElem?_eq_none (Nat.le_of_not_lt hc)] at h
  exact Option.noConfusion h

/-- C2 (as amended): for a record that is in no registry, `pxy_thrmgr_attach` of
src/pxythrmgr.c sets the record's worker reference to the selected worker `i`,
raises that worker's load by exactly one (the counter being below its maximum)
and makes the record the head of that worker's registry, in front of the old
registry; every other worker is unchanged.  `pxy_thrmgr_attach` of
src/src/pxythrmgr.c sets the worker reference only: all workers, so all loads
and registries, are unchanged. -/
theorem attach_effect
    (s : Pxythrmgr.State) (mctx : Addr) (s2 : SrcPxythrmgr.State) (ctx : Addr)
    (h : s.thr ≠ []) (_hfresh : ∀ t ∈ s.thr, mctx ∉ t.mctx_list)
    (hload : ∀ t ∈ s.thr, t.load + 1 < SIZE_MOD) (h2 : s2.thr ≠ []) :
    (∃ i t s', Pxythrmgr.pxy_thrmgr_attach s mctx = some s' ∧
        s.thr[i]? = some t ∧ FirstMin (s.thr.map (fun t => t.load)) i ∧
        (s'.mctx mctx).thr = some i ∧
        s'.thr[i]? = some { t with load := t.load + 1, mctx_list := mctx :: t.mctx_list } ∧
        (∀ j, j ≠ i → s'.thr[j]? = s.thr[j]?) ∧
        s'.thr.length = s.thr.length) ∧
    (∃ i s', SrcPxythrmgr.pxy_thrmgr_attach s2 ctx = some s' ∧
        FirstMin (s2.thr.map (fun t => t.load)) i ∧
        (s'.conn ctx).thr = some i ∧ s'.thr = s2.thr) := by
  constructor
  · obtain ⟨i, t, hi, hfm, heq⟩ := attach_some s mctx h
    have hlt := getElem?_lt_length hi
    have hmod : (t.load + 1) % SIZE_MOD = t.load + 1 :=
      Nat.mod_eq_of_lt (hload t (List.getElem?_mem hi))
    refine ⟨i, t, _, heq, hi, hfm, by simp, ?_, ?_, by simp⟩
    · simp only [hmod]
      exact List.getElem?_set_self hlt
    · intro j hj
      exact List.getElem?_set_ne (Ne.symm hj)
  · obtain ⟨i, t, _, hfm, heq⟩ := src_attach_some s2 ctx h2
    exact ⟨i, _, heq, hfm, by simp, rfl⟩

/-- Witness of C2: the theorem applied to the pools with loads `[3,1,4,1,5]`. -/
theorem attach_effect_witness :
    ∃ i t s', Pxythrmgr.pxy_thrmgr_attach Pxythrmgr.exampleState 7 = some s' ∧
        Pxythrmgr.exampleState.thr[i]? = some t ∧
        FirstMin (Pxythrmgr.exampleState.thr.map (fun t => t.load)) i ∧
        (s'.mctx 7).thr = some i ∧
        s'.thr[i]? = some { t with load := t.load + 1, mctx_list := 7 :: t.mctx_list } ∧
        (∀ j, j ≠ i → s'.thr[j]? = Pxythrmgr.exampleState.thr[j]?) ∧
        s'.thr.length = Pxythrmgr.exampleState.thr.length :=
  (attach_effect Pxythrmgr.exampleState 7 SrcPxythrmgr.exampleState 7
    (by simp [Pxythrmgr.exampleState])
    (by simp [Pxythrmgr.exampleState, Pxythrmgr.workerOfLoad])
    (by simp [Pxythrmgr.exampleState, Pxythrmgr.workerOfLoad, SIZE_MOD])
    (by simp [SrcPxythrmgr.exampleState])).1

/-- Counterexample to C2 as stated: on the pool with loads `[3,1,4,1,5]` and
empty registries, `pxy_thrmgr_attach` of src/src/pxythrmgr.c selects worker
`1`, whose load stays `1` and whose registry stays empty. -/
theorem attach_src_leaves_load_and_registry :
    ∃ s', SrcPxythrmgr.pxy_thrmgr_attach SrcPxythrmgr.exampleState 7 = some s' ∧
      (s'.conn 7).thr = some 1 ∧
      s'.thr.map (fun t => (t.load, t.conns)) = [(3, []), (1, []), (4, []), (1, []), (5, [])] := by
  refine ⟨_, rfl, ?_, ?_⟩
  · decide
  · decide

/-! ### Registry removal -/

theorem uuid_compare_eq_zero (a b : uuid_t) : uuid_compare a b = 0 ↔ a = b := by
  unfold uuid_compare
  by_cases h : a = b
  · simp [h]
  · by_cases h2 : a < b <;> simp [h, h2]

theorem remove_walk_cases (mem : Addr → Pxythrmgr.proxy_conn_meta_ctx_t) (node : Addr)
    (l : List Addr) :
    ((∀ y ∈ l, (mem y).uuid ≠ (mem node).uuid) ∧ Pxythrmgr.remove_walk mem node l = l) ∨
    UnlinkedFirst mem node l (Pxythrmgr.remove_walk mem node l) := by
  induction l with
  | nil => left; simp [Pxythrmgr.remove_walk]
  | cons c rest ih =>
    by_cases hc : (mem node).uuid = (mem c).uuid
    · right
      refine ⟨[], c, rest, rfl, hc.symm, by simp, ?_⟩
      simp [Pxythrmgr.remove_walk, (uuid_compare_eq_zero _ _).2 hc]
    · have hne : ¬ uuid_compare (mem node).uuid (mem c).uuid = 0 :=
        fun h => hc ((uuid_compare_eq_zero _ _).1 h)
      have hstep : Pxythrmgr.remove_walk mem node (c :: rest)
          = c :: Pxythrmgr.remove_walk mem node rest := by
        simp [Pxythrmgr.remove_walk, hne]
      rcases ih with ⟨hall, heq⟩ | ⟨pre, x, post, hsplit, hx, hpre, heq⟩
      · left
        refine ⟨?_, by rw [hstep, heq]⟩
        intro y hy
        rcases List.mem_cons.1 hy with rfl | hy
        · exact fun h => hc h.symm
        · exact hall y hy
      · right
        refine ⟨c :: pre, x, post, by simp [hsplit], hx, ?_, by rw [hstep, heq]; simp⟩
        intro y hy
        rcases List.mem_cons.1 hy with rfl | hy
        · exact fun h => hc h.symm
        · exact hpre y hy

theorem remove_mctx_cons (mem : Addr → Pxythrmgr.proxy_conn_meta_ctx_t) (node h : Addr)
    (rest : List Addr) :
    Pxythrmgr.pxy_thrmgr_remove_mctx mem node (h :: rest)
      = some (Pxythrmgr.remove_walk mem node (h :: rest)) := by
  by_cases hc : uuid_compare (mem node).uuid (mem h).uuid = 0
  · simp [Pxythrmgr.pxy_thrmgr_remove_mctx, Pxythrmgr.remove_walk, hc]
  · simp [Pxythrmgr.pxy_thrmgr_remove_mctx, Pxythrmgr.remove_walk, hc]

theorem remove_mctx_of_ne_nil (mem : Addr → Pxythrmgr.proxy_conn_meta_ctx_t) (node : Addr)
    (head : List Addr) (h : head ≠ []) :
    Pxythrmgr.pxy_thrmgr_remove_mctx mem node head
      = some (Pxythrmgr.remove_walk mem node head) := by
  cases head with
  | nil => exact absurd rfl h
  | cons a rest => exact remove_mctx_cons mem node a rest

theorem remove_walk_of_mem (mem : Addr → Pxythrmgr.proxy_conn_meta_ctx_t) (node : Addr)
    (head : List Addr) (y : Addr) (hy : y ∈ head) (hu : (mem y).uuid = (mem node).uuid) :
    UnlinkedFirst mem node head (Pxythrmgr.remove_walk mem node head) := by
  rcases remove_walk_cases mem node head with ⟨hall, _⟩ | h
  · exact absurd hu (hall y hy)
  · exact h

theorem remove_walk_of_absent (mem : Addr → Pxythrmgr.proxy_conn_meta_ctx_t) (node : Addr)
    (head : List Addr) (hall : ∀ y ∈ head, (mem y).uuid ≠ (mem node).uuid) :
    Pxythrmgr.remove_walk mem node head = head := by
  rcases remove_walk_cases mem node head with ⟨_, h⟩ | ⟨pre, x, post, hsplit, hx, _, _⟩
  · exact h
  · exact absurd hx (hall x (by simp [hsplit]))

theorem UnlinkedFirst_keeps (mem : Addr → Pxythrmgr.proxy_conn_meta_ctx_t) (node : Addr)
    (head l : List Addr) (h : UnlinkedFirst mem node head l) (other : Addr)
    (ho : other ∈ head) (hu : (mem other).uuid ≠ (mem node).uuid) : other ∈ l := by
  obtain ⟨pre, x, post, hsplit, hx, _, hl⟩ := h
  subst hsplit hl
  rcases List.mem_append.1 ho with hp | hp
  · exact List.mem_append.2 (Or.inl hp)
  · rcases List.mem_cons.1 hp with rfl | hp
    · exact absurd hx hu
    · exact List.mem_append.2 (Or.inr hp)

theorem UnlinkedFirst_erase (mem : Addr → Pxythrmgr.proxy_conn_meta_ctx_t) (node : Addr)
    (head l : List Addr) (h : UnlinkedFirst mem node head l)
    (huniq : ∀ y ∈ head, (mem y).uuid = (mem node).uuid → y = node) :
    l = head.erase node := by
  obtain ⟨pre, x, post, hsplit, hx, hpre, hl⟩ := h
  have hxn : x = node := huniq x (by simp [hsplit]) hx
  subst hxn
  have hnot : x ∉ pre := fun hin => hpre x hin rfl
  rw [hl, hsplit, List.erase_append_right _ hnot, List.erase_cons_head]

/-- C5: for a record that is in the registry, `pxy_thrmgr_remove_mctx` unlinks
exactly the first node whose UUID equals the record's UUID and keeps all other
nodes in their order (when no other node has the record's UUID, the node that
is unlinked is the record); a node of the registry with the same descriptors
`(fd, child_fd)` but another UUID is still in the registry afterwards. -/
theorem remove_mctx_unlinks_first_uuid_match
    (mem : Addr → Pxythrmgr.proxy_conn_meta_ctx_t) (node : Addr) (head : List Addr)
    (hin : node ∈ head) :
    (∃ l, Pxythrmgr.pxy_thrmgr_remove_mctx mem node head = some l ∧
      UnlinkedFirst mem node head l) ∧
    ((∀ y ∈ head, (mem y).uuid = (mem node).uuid → y = node) →
      Pxythrmgr.pxy_thrmgr_remove_mctx mem node head = some (head.erase node)) ∧
    (∀ other, other ∈ head → (mem other).fd = (mem node).fd →
      (mem other).child_fd = (mem node).child_fd → (mem other).uuid ≠ (mem node).uuid →
      ∃ l, Pxythrmgr.pxy_thrmgr_remove_mctx mem node head = some l ∧ other ∈ l) := by
  have hne : head ≠ [] := List.ne_nil_of_mem hin
  have hrm := remove_mctx_of_ne_nil mem node head hne
  have hun := remove_walk_of_mem mem node head node hin rfl
  refine ⟨⟨_, hrm, hun⟩, ?_, ?_⟩
  · intro huniq
    rw [hrm, UnlinkedFirst_erase mem node head _ hun huniq]
  · intro other ho _ _ hu
    exact ⟨_, hrm, UnlinkedFirst_keeps mem node head _ hun other ho hu⟩

/-- Witness of C5: records `1`, `2`, `3` share their descriptors and differ in
their UUIDs; the theorem applied to the removal of `2` from `[1, 2, 3]`. -/
theorem remove_mctx_unlinks_first_uuid_match_witness :
    (2 : Addr) ∈ [1, 2, 3] ∧
    (∃ l, Pxythrmgr.pxy_thrmgr_remove_mctx (fun a => Pxythrmgr.freshRecord a) 2 [1, 2, 3] = some l ∧
      UnlinkedFirst (fun a => Pxythrmgr.freshRecord a) 2 [1, 2, 3] l) ∧
    Pxythrmgr.pxy_thrmgr_remove_mctx (fun a => Pxythrmgr.freshRecord a) 2 [1, 2, 3] = some [1, 3] :=
  ⟨by decide,
   (remove_mctx_unlinks_first_uuid_match (fun a => Pxythrmgr.freshRecord a) 2 [1, 2, 3]
      (by decide)).1,
   by decide⟩

/-- C6 (as amended): on a registry that is not empty and holds no node with the
record's UUID, `pxy_thrmgr_remove_mctx` completes and leaves the registry as it
was, and so does `pxy_thrmgr_detach` on a record without children, which only
lowers the load counter; on the empty registry `assert(*head != NULL)` fails. -/
theorem remove_absent_is_noop_on_nonempty
    (s : Pxythrmgr.State) (mctx : Addr) (i : Nat) (t : Pxythrmgr.pxy_thr_ctx_t)
    (hthr : (s.mctx mctx).thr = some i) (hi : s.thr[i]? = some t)
    (hchild : (s.mctx mctx).child_list = none)
    (hne : t.mctx_list ≠ [])
    (habs : ∀ y ∈ t.mctx_list, (s.mctx y).uuid ≠ (s.mctx mctx).uuid) :
    Pxythrmgr.pxy_thrmgr_remove_mctx s.mctx mctx t.mctx_list = some t.mctx_list ∧
    Pxythrmgr.pxy_thrmgr_detach s mctx = some
      { s with thr := s.thr.set i { t with load := (t.load + SIZE_MOD - 1) % SIZE_MOD } } ∧
    Pxythrmgr.pxy_thrmgr_remove_mctx s.mctx mctx [] = none := by
  have hrm : Pxythrmgr.pxy_thrmgr_remove_mctx s.mctx mctx t.mctx_list = some t.mctx_list := by
    rw [remove_mctx_of_ne_nil s.mctx mctx t.mctx_list hne,
      remove_walk_of_absent s.mctx mctx t.mctx_list habs]
  refine ⟨hrm, ?_, rfl⟩
  simp only [Pxythrmgr.pxy_thrmgr_detach, hthr, hi, hchild, hrm]

/-- Witness of C6: record `7` refers to a worker whose registry holds record `3`
only. -/
theorem remove_absent_is_noop_on_nonempty_witness :
    Pxythrmgr.pxy_thrmgr_remove_mctx Pxythrmgr.absentState.mctx 7 [3] = some [3] ∧
    ((Pxythrmgr.pxy_thrmgr_detach Pxythrmgr.absentState 7).map
      (fun s' => s'.thr.map (fun t => (t.load, t.mctx_list)))) = some [(1, [3])] :=
  have h := remove_absent_is_noop_on_nonempty Pxythrmgr.absentState 7 0
    { Pxythrmgr.workerOfLoad 2 with mctx_list := [3] } rfl rfl rfl (by decide) (by decide)
  ⟨h.1, by rw [h.2.1]; decide⟩

/-- Counterexample to C6 as stated: on the empty registry
`pxy_thrmgr_remove_mctx` fails its assertion.  The state is reached from an idle
pool by attaching record `7`, attaching a child session to it and detaching that
child while the record has neither parent reference nor children; the
`pxy_thrmgr_detach` of the record then does not complete. -/
theorem remove_mctx_asserts_on_empty_registry :
    Pxythrmgr.pxy_thrmgr_remove_mctx (fun a => Pxythrmgr.freshRecord a) 7 [] = none ∧
    ∃ s3, (((Pxythrmgr.pxy_thrmgr_attach Pxythrmgr.idleState 7).bind
        (fun s => Pxythrmgr.pxy_thrmgr_attach_child s 7)).bind
        (fun s => Pxythrmgr.pxy_thrmgr_detach_child s 7)) = some s3 ∧
      s3.thr.map (fun t => (t.load, t.mctx_list)) = [(1, []), (0, [])] ∧
      (Pxythrmgr.pxy_thrmgr_detach s3 7).isNone = true :=
  ⟨rfl, _, rfl, by decide, by decide⟩

/-! ### Effect of detach, detach_child and attach_child -/

theorem size_dec (n : Nat) (hpos : 0 < n) (hsz : n < SIZE_MOD) :
    (n + SIZE_MOD - 1) % SIZE_MOD + 1 = n := by
  have h1 : n + SIZE_MOD - 1 = (n - 1) + SIZE_MOD := by omega
  rw [h1, Nat.add_mod_right, Nat.mod_eq_of_lt (by omega)]
  omega

theorem detach_no_child (s : Pxythrmgr.State) (mctx : Addr) (i : Nat)
    (t : Pxythrmgr.pxy_thr_ctx_t) (hthr : (s.mctx mctx).thr = some i) (hi : s.thr[i]? = some t)
    (hc : (s.mctx mctx).child_list = none) (hne : t.mctx_list ≠ []) :
    Pxythrmgr.pxy_thrmgr_detach s mctx = some
      { s with
        thr := s.thr.set i
          { t with
            load := (t.load + SIZE_MOD - 1) % SIZE_MOD,
            mctx_list := Pxythrmgr.remove_walk s.mctx mctx t.mctx_list } } := by
  simp only [Pxythrmgr.pxy_thrmgr_detach, hthr, hi, hc,
    remove_mctx_of_ne_nil s.mctx mctx t.mctx_list hne]

theorem detach_with_child (s : Pxythrmgr.State) (mctx : Addr) (i : Nat)
    (t : Pxythrmgr.pxy_thr_ctx_t) (hthr : (s.mctx mctx).thr = some i) (hi : s.thr[i]? = some t)
    (hc : (s.mctx mctx).child_list ≠ none) :
    Pxythrmgr.pxy_thrmgr_detach s mctx = some
      { s with thr := s.thr.set i { t with load := (t.load + SIZE_MOD - 1) % SIZE_MOD } } := by
  cases h : (s.mctx mctx).child_list with
  | none => exact absurd h hc
  | some c => simp only [Pxythrmgr.pxy_thrmgr_detach, hthr, hi, h]

theorem detach_child_unpinned (s : Pxythrmgr.State) (mctx : Addr) (i : Nat)
    (t : Pxythrmgr.pxy_thr_ctx_t) (hthr : (s.mctx mctx).thr = some i) (hi : s.thr[i]? = some t)
    (hp : (s.mctx mctx).parent_ctx = none) (hc : (s.mctx mctx).child_list = none)
    (hne : t.mctx_list ≠ []) :
    Pxythrmgr.pxy_thrmgr_detach_child s mctx = some
      { s with
        thr := s.thr.set i
          { t with
            load := (t.load + SIZE_MOD - 1) % SIZE_MOD,
            mctx_list := Pxythrmgr.remove_walk s.mctx mctx t.mctx_list } } := by
  simp only [Pxythrmgr.pxy_thrmgr_detach_child, hthr, hi, hp, hc,
    remove_mctx_of_ne_nil s.mctx mctx t.mctx_list hne]

theorem detach_child_pinned (s : Pxythrmgr.State) (mctx : Addr) (i : Nat)
    (t : Pxythrmgr.pxy_thr_ctx_t) (hthr : (s.mctx mctx).thr = some i) (hi : s.thr[i]? = some t)
    (hpin : ¬ ((s.mctx mctx).parent_ctx = none ∧ (s.mctx mctx).child_list = none)) :
    Pxythrmgr.pxy_thrmgr_detach_child s mctx = some
      { s with thr := s.thr.set i { t with load := (t.load + SIZE_MOD - 1) % SIZE_MOD } } := by
  cases hp : (s.mctx mctx).parent_ctx with
  | none =>
    cases hc : (s.mctx mctx).child_list with
    | none => exact absurd ⟨hp, hc⟩ hpin
    | some c => simp only [Pxythrmgr.pxy_thrmgr_detach_child, hthr, hi, hp, hc]
  | some q => simp only [Pxythrmgr.pxy_thrmgr_detach_child, hthr, hi, hp]

theorem attach_child_some (s : Pxythrmgr.State) (mctx : Addr) (i : Nat)
    (t : Pxythrmgr.pxy_thr_ctx_t) (hthr : (s.mctx mctx).thr = some i) (hi : s.thr[i]? = some t) :
    Pxythrmgr.pxy_thrmgr_attach_child s mctx = some
      { s with thr := s.thr.set i { t with load := (t.load + 1) % SIZE_MOD } } := by
  simp only [Pxythrmgr.pxy_thrmgr_attach_child, hthr, hi]

/-- C7: for an attached record (it refers to worker `i`, is in that worker's
registry, and the worker's load counts it), `pxy_thrmgr_detach` lowers the load
of worker `i` by exactly one, with or without children; without children the
new registry is the old one with the first node of the record's UUID unlinked
(the record itself when no other node has its UUID), with a child the registry
is unchanged.  No other worker and no record changes. -/
theorem detach_effect
    (s : Pxythrmgr.State) (mctx : Addr) (i : Nat) (t : Pxythrmgr.pxy_thr_ctx_t)
    (hthr : (s.mctx mctx).thr = some i) (hi : s.thr[i]? = some t)
    (hin : mctx ∈ t.mctx_list) (hpos : 0 < t.load) (hsz : t.load < SIZE_MOD) :
    ∃ s' t', Pxythrmgr.pxy_thrmgr_detach s mctx = some s' ∧ s'.thr[i]? = some t' ∧
      t'.load + 1 = t.load ∧
      ((s.mctx mctx).child_list = none →
        UnlinkedFirst s.mctx mctx t.mctx_list t'.mctx_list ∧
        ((∀ y ∈ t.mctx_list, (s.mctx y).uuid = (s.mctx mctx).uuid → y = mctx) →
          t'.mctx_list = t.mctx_list.erase mctx)) ∧
      ((s.mctx mctx).child_list ≠ none → t'.mctx_list = t.mctx_list) ∧
      (∀ j, j ≠ i → s'.thr[j]? = s.thr[j]?) ∧
      s'.thr.length = s.thr.length ∧ s'.mctx = s.mctx := by
  have hlt := getElem?_lt_length hi
  have hne : t.mctx_list ≠ [] := List.ne_nil_of_mem hin
  have hun := remove_walk_of_mem s.mctx mctx t.mctx_list mctx hin rfl
  by_cases hc : (s.mctx mctx).child_list = none
  · refine ⟨_,
      { t with
        load := (t.load + SIZE_MOD - 1) % SIZE_MOD,
        mctx_list := Pxythrmgr.remove_walk s.mctx mctx t.mctx_list },
      detach_no_child s mctx i t hthr hi hc hne,
      List.getElem?_set_self hlt, size_dec t.load hpos hsz,
      fun _ => ⟨hun, UnlinkedFirst_erase s.mctx mctx t.mctx_list _ hun⟩, ?_, ?_, ?_, rfl⟩
    · intro h; exact absurd hc h
    · intro j hj; exact List.getElem?_set_ne (Ne.symm hj)
    · simp
  · refine ⟨_, { t with load := (t.load + SIZE_MOD - 1) % SIZE_MOD },
      detach_with_child s mctx i t hthr hi hc,
      List.getElem?_set_self hlt, size_dec t.load hpos hsz, ?_, fun _ => rfl, ?_, ?_, rfl⟩
    · intro h; exact absurd h hc
    · intro j hj; exact List.getElem?_set_ne (Ne.symm hj)
    · simp

/-- Witness of C7: the detach of the parent record `7` of worker `1`. -/
theorem detach_effect_witness :
    ∃ s' t', Pxythrmgr.pxy_thrmgr_detach Pxythrmgr.parentState 7 = some s' ∧
      s'.thr[1]? = some t' ∧ t'.load + 1 = 2 ∧ t'.mctx_list = [7, 3] := by
  obtain ⟨s', t', h1, h2, h3, _, h5, _⟩ := detach_effect Pxythrmgr.parentState 7 1
    { Pxythrmgr.workerOfLoad 2 with mctx_list := [7, 3] } rfl rfl (by decide) (by decide)
    (by decide)
  exact ⟨s', t', h1, h2, h3, h5 (by decide)⟩

/-- C8: for an attached record, `pxy_thrmgr_detach_child` lowers the load of the
record's worker by exactly one; it unlinks the first node of the record's UUID
(the record itself when no other node has its UUID) from the registry when the
record has neither a parent reference nor children, and leaves the registry
unchanged when it has a parent reference or a child.  No other worker and no
record changes. -/
theorem detach_child_effect
    (s : Pxythrmgr.State) (mctx : Addr) (i : Nat) (t : Pxythrmgr.pxy_thr_ctx_t)
    (hthr : (s.mctx mctx).thr = some i) (hi : s.thr[i]? = some t)
    (hin : mctx ∈ t.mctx_list) (hpos : 0 < t.load) (hsz : t.load < SIZE_MOD) :
    ∃ s' t', Pxythrmgr.pxy_thrmgr_detach_child s mctx = some s' ∧ s'.thr[i]? = some t' ∧
      t'.load + 1 = t.load ∧
      (((s.mctx mctx).parent_ctx = none ∧ (s.mctx mctx).child_list = none) →
        UnlinkedFirst s.mctx mctx t.mctx_list t'.mctx_list ∧
        ((∀ y ∈ t.mctx_list, (s.mctx y).uuid = (s.mctx mctx).uuid → y = mctx) →
          t'.mctx_list = t.mctx_list.erase mctx)) ∧
      (¬ ((s.mctx mctx).parent_ctx = none ∧ (s.mctx mctx).child_list = none) →
        t'.mctx_list = t.mctx_list) ∧
      (∀ j, j ≠ i → s'.thr[j]? = s.thr[j]?) ∧
      s'.thr.length = s.thr.length ∧ s'.mctx = s.mctx := by
  have hlt := getElem?_lt_length hi
  have hne : t.mctx_list ≠ [] := List.ne_nil_of_mem hin
  have hun := remove_walk_of_mem s.mctx mctx t.mctx_list mctx hin rfl
  by_cases hpin : (s.mctx mctx).parent_ctx = none ∧ (s.mctx mctx).child_list = none
  · refine ⟨_,
      { t with
        load := (t.load + SIZE_MOD - 1) % SIZE_MOD,
        mctx_list := Pxythrmgr.remove_walk s.mctx mctx t.mctx_list },
      detach_child_unpinned s mctx i t hthr hi hpin.1 hpin.2 hne,
      List.getElem?_set_self hlt, size_dec t.load hpos hsz,
      fun _ => ⟨hun, UnlinkedFirst_erase s.mctx mctx t.mctx_list _ hun⟩, ?_, ?_, ?_, rfl⟩
    · intro h; exact absurd hpin h
    · intro j hj; exact List.getElem?_set_ne (Ne.symm hj)
    · simp
  · refine ⟨_, { t with load := (t.load + SIZE_MOD - 1) % SIZE_MOD },
      detach_child_pinned s mctx i t hthr hi hpin,
      List.getElem?_set_self hlt, size_dec t.load hpos hsz, ?_, fun _ => rfl, ?_, ?_, rfl⟩
    · intro h; exact absurd h hpin
    · intro j hj; exact List.getElem?_set_ne (Ne.symm hj)
    · simp

/-- Witness of C8: the child detach of record `3` of worker `1`, which has
neither a parent reference nor children. -/
theorem detach_child_effect_witness :
    ∃ s' t', Pxythrmgr.pxy_thrmgr_detach_child Pxythrmgr.parentState 3 = some s' ∧
      s'.thr[1]? = some t' ∧ t'.load + 1 = 2 ∧
      UnlinkedFirst Pxythrmgr.parentState.mctx 3 [7, 3] t'.mctx_list := by
  obtain ⟨s', t', h1, h2, h3, h4, _⟩ := detach_child_effect Pxythrmgr.parentState 3 1
    { Pxythrmgr.workerOfLoad 2 with mctx_list := [7, 3] } rfl rfl (by decide) (by decide)
    (by decide)
  exact ⟨s', t', h1, h2, h3, (h4 (by decide)).1⟩

/-- C10: for a record that refers to worker `i`, `pxy_thrmgr_attach_child` runs
no scheduling: no record changes (so the worker reference is kept), the load of
worker `i` rises by exactly one (the counter being below its maximum), its
registry and every other worker are unchanged. -/
theorem attach_child_effect
    (s : Pxythrmgr.State) (mctx : Addr) (i : Nat) (t : Pxythrmgr.pxy_thr_ctx_t)
    (hthr : (s.mctx mctx).thr = some i) (hi : s.thr[i]? = some t)
    (hload : t.load + 1 < SIZE_MOD) :
    ∃ s', Pxythrmgr.pxy_thrmgr_attach_child s mctx = some s' ∧
      s'.mctx = s.mctx ∧ (s'.mctx mctx).thr = some i ∧
      s'.thr[i]? = some { t with load := t.load + 1 } ∧
      (∀ j, j ≠ i → s'.thr[j]? = s.thr[j]?) ∧
      s'.thr.map (fun w => w.mctx_list) = s.thr.map (fun w => w.mctx_list) := by
  have hlt := getElem?_lt_length hi
  have hmod : (t.load + 1) % SIZE_MOD = t.load + 1 := Nat.mod_eq_of_lt hload
  refine ⟨_, attach_child_some s mctx i t hthr hi, rfl, hthr, ?_, ?_, ?_⟩
  · simp only [hmod]
    exact List.getElem?_set_self hlt
  · intro j hj; exact List.getElem?_set_ne (Ne.symm hj)
  · apply List.ext_getElem?
    intro j
    by_cases hj : j = i
    · subst hj
      rw [List.getElem?_map, List.getElem?_map, List.getElem?_set_self hlt, hi]
      rfl
    · simp [List.getElem?_map, List.getElem?_set_ne (Ne.symm hj)]

/-- Witness of C10: a child session is attached to record `7` of worker `1`. -/
theorem attach_child_effect_witness :
    ∃ s', Pxythrmgr.pxy_thrmgr_attach_child Pxythrmgr.parentState 7 = some s' ∧
      s'.mctx = Pxythrmgr.parentState.mctx ∧ (s'.mctx 7).thr = some 1 ∧
      s'.thr[1]? = some { Pxythrmgr.workerOfLoad 3 with mctx_list := [7, 3] } ∧
      (∀ j, j ≠ 1 → s'.thr[j]? = Pxythrmgr.parentState.thr[j]?) ∧
      s'.thr.map (fun w => w.mctx_list) = Pxythrmgr.parentState.thr.map (fun w => w.mctx_list) :=
  attach_child_effect Pxythrmgr.parentState 7 1
    { Pxythrmgr.workerOfLoad 2 with mctx_list := [7, 3] } rfl rfl (by decide)

/-! ### Expiration sweep -/

theorem elapsed_time_of_le (now access_time : Int) (hnow : time_t_range now)
    (hacc : time_t_range access_time) (hle : access_time ≤ now) :
    ((Pxythrmgr.elapsed_time now access_time : Nat) : Int) = now - access_time := by
  unfold time_t_range at hnow hacc
  unfold Pxythrmgr.elapsed_time SIZE_MOD
  have h0 : 0 ≤ now - access_time := by omega
  have h1 : now - access_time < 2 ^ 64 := by omega
  have h2 : (now - access_time) % ((2 ^ 64 : Nat) : Int) = now - access_time := by
    apply Int.emod_eq_of_lt h0
    simpa using h1
  rw [h2]
  exact Int.toNat_of_nonneg h0

theorem expired_walk_eq (mem : Addr → Pxythrmgr.proxy_conn_meta_ctx_t) (now : Int)
    (l : List Addr) :
    ∀ acc, Pxythrmgr.expired_walk mem now l acc =
      (l.filter (fun a => decide (Pxythrmgr.elapsed_time now (mem a).access_time
        > Pxythrmgr.CONN_EXPIRE_TIME))).reverse ++ acc := by
  induction l with
  | nil => intro acc; simp [Pxythrmgr.expired_walk]
  | cons a rest ih =>
    intro acc
    by_cases h : Pxythrmgr.elapsed_time now (mem a).access_time > Pxythrmgr.CONN_EXPIRE_TIME
    · simp [Pxythrmgr.expired_walk, h, ih]
    · simp [Pxythrmgr.expired_walk, h, ih]

theorem timer_cb_walk_eq (l : List Addr) : Pxythrmgr.timer_cb_walk l = l := by
  induction l with
  | nil => rfl
  | cons a rest ih => simp [Pxythrmgr.timer_cb_walk, ih]

theorem timer_cb_fst (mem : Addr → Pxythrmgr.proxy_conn_meta_ctx_t)
    (ctx : Pxythrmgr.pxy_thr_ctx_t) (now : Int) :
    (Pxythrmgr.pxy_thrmgr_timer_cb mem ctx now).1
      = Pxythrmgr.pxy_thrmgr_get_thr_expired_conns mem ctx now := by
  unfold Pxythrmgr.pxy_thrmgr_timer_cb
  simp only [timer_cb_walk_eq]
  split <;> rfl

/-- C9: for a registry of distinct nodes and a time `now` not before any
record's `access_time`, the chain built by `pxy_thrmgr_get_thr_expired_conns`
holds, each exactly once, precisely the registry records with
`now - access_time > 30`, whatever their parent reference and children, and
`pxy_thrmgr_timer_cb` hands exactly the records of that chain to teardown.  A
registry record with a child that is idle beyond the threshold is handed to
teardown, while `pxy_thrmgr_detach` of it leaves the registry as it was. -/
theorem expired_sweep
    (s : Pxythrmgr.State) (i : Nat) (ctx : Pxythrmgr.pxy_thr_ctx_t) (now : Int)
    (hi : s.thr[i]? = some ctx) (hnodup : ctx.mctx_list.Nodup) (hnow : time_t_range now)
    (hacc : ∀ a ∈ ctx.mctx_list,
      time_t_range (s.mctx a).access_time ∧ (s.mctx a).access_time ≤ now) :
    (Pxythrmgr.pxy_thrmgr_get_thr_expired_conns s.mctx ctx now).Nodup ∧
    (∀ a, a ∈ Pxythrmgr.pxy_thrmgr_get_thr_expired_conns s.mctx ctx now ↔
      a ∈ ctx.mctx_list ∧ now - (s.mctx a).access_time > 30) ∧
    (Pxythrmgr.pxy_thrmgr_timer_cb s.mctx ctx now).1
      = Pxythrmgr.pxy_thrmgr_get_thr_expired_conns s.mctx ctx now ∧
    (∀ a, a ∈ ctx.mctx_list → (s.mctx a).thr = some i → (s.mctx a).child_list ≠ none →
      now - (s.mctx a).access_time > 30 →
      a ∈ (Pxythrmgr.pxy_thrmgr_timer_cb s.mctx ctx now).1 ∧
      ∃ s' t', Pxythrmgr.pxy_thrmgr_detach s a = some s' ∧ s'.thr[i]? = some t' ∧
        t'.mctx_list = ctx.mctx_list) := by
  have hchain : Pxythrmgr.pxy_thrmgr_get_thr_expired_conns s.mctx ctx now =
      (ctx.mctx_list.filter (fun a => decide (Pxythrmgr.elapsed_time now (s.mctx a).access_time
        > Pxythrmgr.CONN_EXPIRE_TIME))).reverse := by
    unfold Pxythrmgr.pxy_thrmgr_get_thr_expired_conns
    rw [expired_walk_eq]
    simp
  have hmem : ∀ a, a ∈ Pxythrmgr.pxy_thrmgr_get_thr_expired_conns s.mctx ctx now ↔
      a ∈ ctx.mctx_list ∧ now - (s.mctx a).access_time > 30 := by
    intro a
    rw [hchain, List.mem_reverse, List.mem_filter]
    constructor
    · rintro ⟨ha, hd⟩
      have hel := elapsed_time_of_le now _ hnow (hacc a ha).1 (hacc a ha).2
      have hd' := of_decide_eq_true hd
      unfold Pxythrmgr.CONN_EXPIRE_TIME at hd'
      refine ⟨ha, ?_⟩
      rw [← hel]
      exact_mod_cast hd'
    · rintro ⟨ha, hd⟩
      have hel := elapsed_time_of_le now _ hnow (hacc a ha).1 (hacc a ha).2
      refine ⟨ha, decide_eq_true ?_⟩
      unfold Pxythrmgr.CONN_EXPIRE_TIME
      rw [← hel] at hd
      exact_mod_cast hd
  refine ⟨?_, hmem, timer_cb_fst s.mctx ctx now, ?_⟩
  · rw [hchain]
    exact List.nodup_reverse.2 (hnodup.filter _)
  · intro a ha hthr hchild hidle
    refine ⟨?_, ?_⟩
    · rw [timer_cb_fst]
      exact (hmem a).2 ⟨ha, hidle⟩
    · exact ⟨_, { ctx with load := (ctx.load + SIZE_MOD - 1) % SIZE_MOD },
        detach_with_child s a i ctx hthr hi hchild,
        List.getElem?_set_self (getElem?_lt_length hi), rfl⟩

/-- Witness of C9: at time `100` the records `1`, `2`, `3`, `4` have been idle
for `10`, `20`, `30` and `40`; only record `4`, which has a child, is collected
and handed to teardown. -/
theorem expired_sweep_witness :
    Pxythrmgr.pxy_thrmgr_get_thr_expired_conns Pxythrmgr.sweepState.mctx
      { Pxythrmgr.workerOfLoad 4 with mctx_list := [1, 2, 3, 4] } 100 = [4] ∧
    (4 : Addr) ∈ (Pxythrmgr.pxy_thrmgr_timer_cb Pxythrmgr.sweepState.mctx
      { Pxythrmgr.workerOfLoad 4 with mctx_list := [1, 2, 3, 4] } 100).1 ∧
    ∃ s' t', Pxythrmgr.pxy_thrmgr_detach Pxythrmgr.sweepState 4 = some s' ∧
      s'.thr[0]? = some t' ∧ t'.mctx_list = [1, 2, 3, 4] :=
  have h := expired_sweep Pxythrmgr.sweepState 0
    { Pxythrmgr.workerOfLoad 4 with mctx_list := [1, 2, 3, 4] } 100 rfl (by decide)
    (by simp [time_t_range])
    (by
      intro a ha
      simp at ha
      rcases ha with rfl | rfl | rfl | rfl <;>
        simp [time_t_range, Pxythrmgr.sweepState, Pxythrmgr.freshRecord])
  have h4 := h.2.2.2 4 (by decide) rfl (by decide) (by decide)
  ⟨by decide, h4.1, h4.2⟩

/-! ### Parent pinning -/

theorem remove_walk_head (mem : Addr → Pxythrmgr.proxy_conn_meta_ctx_t) (node : Addr)
    (rest : List Addr) : Pxythrmgr.remove_walk mem node (node :: rest) = rest := by
  simp [Pxythrmgr.remove_walk, (uuid_compare_eq_zero _ _).2 rfl]

theorem set_links_self (s : Pxythrmgr.State) (a : Addr) (p c : Option Addr) :
    ((Pxythrmgr.set_links s a p c).mctx a).thr = (s.mctx a).thr ∧
    ((Pxythrmgr.set_links s a p c).mctx a).parent_ctx = p ∧
    ((Pxythrmgr.set_links s a p c).mctx a).child_list = c := by
  simp [Pxythrmgr.set_links]

theorem attach_post (s : Pxythrmgr.State) (mctx : Addr) (h : s.thr ≠ []) :
    ∃ i t s' t', Pxythrmgr.pxy_thrmgr_attach s mctx = some s' ∧ s.thr[i]? = some t ∧
      s'.thr[i]? = some t' ∧ t'.mctx_list = mctx :: t.mctx_list ∧
      (s'.mctx mctx).thr = some i := by
  obtain ⟨i, t, hi, _, hatt⟩ := attach_some s mctx h
  exact ⟨i, t, _, _, hatt, hi, List.getElem?_set_self (getElem?_lt_length hi), rfl, by simp⟩

theorem attach_child_post (s : Pxythrmgr.State) (mctx : Addr) (i : Nat)
    (t : Pxythrmgr.pxy_thr_ctx_t) (hthr : (s.mctx mctx).thr = some i) (hi : s.thr[i]? = some t) :
    ∃ s' t', Pxythrmgr.pxy_thrmgr_attach_child s mctx = some s' ∧ s'.mctx = s.mctx ∧
      s'.thr[i]? = some t' ∧ t'.mctx_list = t.mctx_list :=
  ⟨_, _, attach_child_some s mctx i t hthr hi, rfl,
    List.getElem?_set_self (getElem?_lt_length hi), rfl⟩

theorem detach_with_child_post (s : Pxythrmgr.State) (mctx : Addr) (i : Nat)
    (t : Pxythrmgr.pxy_thr_ctx_t) (hthr : (s.mctx mctx).thr = some i) (hi : s.thr[i]? = some t)
    (hc : (s.mctx mctx).child_list ≠ none) :
    ∃ s' t', Pxythrmgr.pxy_thrmgr_detach s mctx = some s' ∧ s'.mctx = s.mctx ∧
      s'.thr[i]? = some t' ∧ t'.mctx_list = t.mctx_list :=
  ⟨_, _, detach_with_child s mctx i t hthr hi hc, rfl,
    List.getElem?_set_self (getElem?_lt_length hi), rfl⟩

theorem detach_child_unpinned_post (s : Pxythrmgr.State) (mctx : Addr) (i : Nat)
    (t : Pxythrmgr.pxy_thr_ctx_t) (hthr : (s.mctx mctx).thr = some i) (hi : s.thr[i]? = some t)
    (hp : (s.mctx mctx).parent_ctx = none) (hc : (s.mctx mctx).child_list = none)
    (hne : t.mctx_list ≠ []) :
    ∃ s' t', Pxythrmgr.pxy_thrmgr_detach_child s mctx = some s' ∧ s'.mctx = s.mctx ∧
      s'.thr[i]? = some t' ∧
      t'.mctx_list = Pxythrmgr.remove_walk s.mctx mctx t.mctx_list :=
  ⟨_, _, detach_child_unpinned s mctx i t hthr hi hp hc hne, rfl,
    List.getElem?_set_self (getElem?_lt_length hi), rfl⟩

/-- C4: in a pool with at least one worker, attach a record that is in no
registry, give it a child and attach the child, then detach the parent: the
record is still in its worker's registry.  Once the child is gone (no child
list, no parent reference), `pxy_thrmgr_detach_child` removes the record from
the registry, which is then the registry from before the attach. -/
theorem parent_pinning
    (s0 : Pxythrmgr.State) (mctx : Addr) (parent : Option Addr) (child : Addr)
    (h : s0.thr ≠ []) (hfresh : ∀ t ∈ s0.thr, mctx ∉ t.mctx_list) :
    ∃ i t0 s1 s2 s3 t3 s4 t4,
      Pxythrmgr.pxy_thrmgr_attach s0 mctx = some s1 ∧
      s0.thr[i]? = some t0 ∧ (s1.mctx mctx).thr = some i ∧
      Pxythrmgr.pxy_thrmgr_attach_child
        (Pxythrmgr.set_links s1 mctx parent (some child)) mctx = some s2 ∧
      Pxythrmgr.pxy_thrmgr_detach s2 mctx = some s3 ∧
      s3.thr[i]? = some t3 ∧ mctx ∈ t3.mctx_list ∧
      Pxythrmgr.pxy_thrmgr_detach_child
        (Pxythrmgr.set_links s3 mctx none none) mctx = some s4 ∧
      s4.thr[i]? = some t4 ∧ mctx ∉ t4.mctx_list ∧ t4.mctx_list = t0.mctx_list := by
  obtain ⟨i, t0, s1, t1, h1, hi0, hi1, hreg1, hthr1⟩ := attach_post s0 mctx h
  -- the child is created and attached
  have hl1 := set_links_self s1 mctx parent (some child)
  obtain ⟨s2, t2, h2, hmem2, hi2, hreg2⟩ := attach_child_post
    (Pxythrmgr.set_links s1 mctx parent (some child)) mctx i t1 (hl1.1.trans hthr1) hi1
  -- the parent is detached while it has the child
  have hthr2 : (s2.mctx mctx).thr = some i := by rw [hmem2]; exact hl1.1.trans hthr1
  have hc2 : (s2.mctx mctx).child_list ≠ none := by
    rw [hmem2, hl1.2.2]; exact Option.some_ne_none child
  obtain ⟨s3, t3, h3, hmem3, hi3, hreg3⟩ := detach_with_child_post s2 mctx i t2 hthr2 hi2 hc2
  have hthr3 : (s3.mctx mctx).thr = some i := by rw [hmem3]; exact hthr2
  have hreg3' : t3.mctx_list = mctx :: t0.mctx_list := by rw [hreg3, hreg2, hreg1]
  -- the child is gone and detached
  have hl3 := set_links_self s3 mctx none none
  obtain ⟨s4, t4, h4, _, hi4, hreg4⟩ := detach_child_unpinned_post
    (Pxythrmgr.set_links s3 mctx none none) mctx i t3 (hl3.1.trans hthr3) hi3 hl3.2.1 hl3.2.2
    (by rw [hreg3']; exact List.cons_ne_nil _ _)
  rw [hreg3', remove_walk_head] at hreg4
  refine ⟨i, t0, s1, s2, s3, t3, s4, t4, h1, hi0, hthr1, h2, h3, hi3, ?_, h4, hi4, ?_, hreg4⟩
  · rw [hreg3']; exact List.mem_cons_self _ _
  · rw [hreg4]; exact hfresh t0 (List.getElem?_mem hi0)

/-- Witness of C4: the theorem applied to record `7` on an idle pool of two
workers. -/
theorem parent_pinning_witness :
    ∃ i t0 s1 s2 s3 t3 s4 t4,
      Pxythrmgr.pxy_thrmgr_attach Pxythrmgr.idleState 7 = some s1 ∧
      Pxythrmgr.idleState.thr[i]? = some t0 ∧ (s1.mctx 7).thr = some i ∧
      Pxythrmgr.pxy_thrmgr_attach_child
        (Pxythrmgr.set_links s1 7 (some 1) (some 70)) 7 = some s2 ∧
      Pxythrmgr.pxy_thrmgr_detach s2 7 = some s3 ∧
      s3.thr[i]? = some t3 ∧ 7 ∈ t3.mctx_list ∧
      Pxythrmgr.pxy_thrmgr_detach_child (Pxythrmgr.set_links s3 7 none none) 7 = some s4 ∧
      s4.thr[i]? = some t4 ∧ 7 ∉ t4.mctx_list ∧ t4.mctx_list = t0.mctx_list :=
  parent_pinning Pxythrmgr.idleState 7 (some 1) 70 (by decide) (by decide)

/-! ### Load conservation -/

theorem sum_indicator (k n : Nat) :
    ((List.range n).map (fun i => if k = i then 1 else 0)).sum = if k < n then 1 else 0 := by
  induction n with
  | zero => simp
  | succ n ih =>
    rw [List.range_succ, List.map_append, List.sum_append, ih]
    by_cases h1 : k < n
    · have h2 : k ≠ n := by omega
      have h3 : k < n + 1 := by omega
      simp [h1, h2, h3]
    · by_cases h2 : k = n
      · simp [h2]
      · have h3 : ¬ k < n + 1 := by omega
        simp [h1, h2, h3]

theorem sum_sessionsOn (mem : Addr → Pxythrmgr.proxy_conn_meta_ctx_t) (n : Nat)
    (live : List Addr) (hvalid : ∀ a ∈ live, ∃ i, (mem a).thr = some i ∧ i < n) :
    ((List.range n).map (fun i => Pxythrmgr.sessionsOn mem live i)).sum = live.length := by
  induction live with
  | nil => simp [Pxythrmgr.sessionsOn]
  | cons a rest ih =>
    obtain ⟨k, hk, hkn⟩ := hvalid a (List.mem_cons_self _ _)
    have hrest := ih (fun b hb => hvalid b (List.mem_cons_of_mem _ hb))
    have hfun : (fun i => Pxythrmgr.sessionsOn mem (a :: rest) i)
        = (fun i => Pxythrmgr.sessionsOn mem rest i + (if k = i then 1 else 0)) := by
      funext i
      simp [Pxythrmgr.sessionsOn, List.countP_cons, hk]
    rw [hfun, List.sum_map_add, hrest, sum_indicator, if_pos hkn, List.length_cons]

theorem sum_loads_eq (s : Pxythrmgr.State) (g : Pxythrmgr.Sessions)
    (hinv : Pxythrmgr.LoadInv s g) :
    (s.thr.map (fun t => t.load)).sum = g.top.length + g.child.length := by
  have hmap : s.thr.map (fun t => t.load) = (List.range s.thr.length).map
      (fun i => Pxythrmgr.sessionsOn s.mctx (g.top ++ g.child) i) := by
    apply List.ext_getElem?
    intro j
    rw [List.getElem?_map, List.getElem?_map]
    by_cases hj : j < s.thr.length
    · rw [List.getElem?_range hj, List.getElem?_eq_getElem hj]
      simp only [Option.map_some']
      rw [hinv.load_eq j _ (List.getElem?_eq_getElem hj)]
    · rw [List.getElem?_eq_none (Nat.le_of_not_lt hj),
        List.getElem?_eq_none (by simpa using Nat.le_of_not_lt hj)]
      rfl
  rw [hmap, sum_sessionsOn s.mctx s.thr.length (g.top ++ g.child)
    (fun a ha => hinv.thr_valid a (hinv.live_attached a ha)), List.length_append]

theorem countP_erase_add (p : Addr → Bool) (a : Addr) (l : List Addr) (h : a ∈ l) :
    (l.erase a).countP p + (if p a then 1 else 0) = l.countP p := by
  induction l with
  | nil => exact absurd h (List.not_mem_nil a)
  | cons b rest ih =>
    by_cases hb : b = a
    · subst hb
      rw [List.erase_cons_head, List.countP_cons]
    · have hmem : a ∈ rest := by
        rcases List.mem_cons.1 h with h1 | h1
        · exact absurd h1.symm hb
        · exact h1
      rw [List.erase_cons_tail (by simpa using hb), List.countP_cons, List.countP_cons,
        ← ih hmem]
      omega

theorem sessionsOn_le (mem : Addr → Pxythrmgr.proxy_conn_meta_ctx_t) (live : List Addr)
    (i : Nat) : Pxythrmgr.sessionsOn mem live i ≤ live.length :=
  List.countP_le_length _

theorem sessionsOn_congr (mem mem' : Addr → Pxythrmgr.proxy_conn_meta_ctx_t)
    (live : List Addr) (i : Nat) (h : ∀ a ∈ live, (mem' a).thr = (mem a).thr) :
    Pxythrmgr.sessionsOn mem' live i = Pxythrmgr.sessionsOn mem live i := by
  unfold Pxythrmgr.sessionsOn
  apply List.countP_congr
  intro a ha
  rw [h a ha]

theorem sessionsOn_cons (mem : Addr → Pxythrmgr.proxy_conn_meta_ctx_t) (a : Addr)
    (live : List Addr) (i k : Nat) (hk : (mem a).thr = some k) :
    Pxythrmgr.sessionsOn mem (a :: live) i
      = Pxythrmgr.sessionsOn mem live i + (if k = i then 1 else 0) := by
  simp [Pxythrmgr.sessionsOn, List.countP_cons, hk]

theorem sessionsOn_erase (mem : Addr → Pxythrmgr.proxy_conn_meta_ctx_t) (a : Addr)
    (live : List Addr) (i k : Nat) (hk : (mem a).thr = some k) (ha : a ∈ live) :
    Pxythrmgr.sessionsOn mem (live.erase a) i + (if k = i then 1 else 0)
      = Pxythrmgr.sessionsOn mem live i := by
  have h := countP_erase_add (fun b => decide ((mem b).thr = some i)) a live ha
  simpa [Pxythrmgr.sessionsOn, hk] using h

theorem sessionsOn_append (mem : Addr → Pxythrmgr.proxy_conn_meta_ctx_t)
    (l1 l2 : List Addr) (i : Nat) :
    Pxythrmgr.sessionsOn mem (l1 ++ l2) i
      = Pxythrmgr.sessionsOn mem l1 i + Pxythrmgr.sessionsOn mem l2 i := by
  simp [Pxythrmgr.sessionsOn]

theorem load_eq_after_set (thr : List Pxythrmgr.pxy_thr_ctx_t) (i : Nat)
    (t' : Pxythrmgr.pxy_thr_ctx_t) (cntOld cntNew : Nat → Nat)
    (hold : ∀ (j : Nat) (u : Pxythrmgr.pxy_thr_ctx_t), thr[j]? = some u → u.load = cntOld j)
    (hnew : t'.load = cntNew i) (hother : ∀ j, j ≠ i → cntNew j = cntOld j) :
    ∀ (j : Nat) (u : Pxythrmgr.pxy_thr_ctx_t), (thr.set i t')[j]? = some u →
      u.load = cntNew j := by
  intro j u hj
  by_cases hji : j = i
  · subst hji
    have hlt : j < thr.length := by simpa using getElem?_lt_length hj
    rw [List.getElem?_set_self hlt] at hj
    rw [← Option.some.inj hj]
    exact hnew
  · rw [List.getElem?_set_ne (Ne.symm hji)] at hj
    rw [hother j hji]
    exact hold j u hj

theorem detach_inv (s s' : Pxythrmgr.State) (mctx : Addr) (i : Nat)
    (t : Pxythrmgr.pxy_thr_ctx_t) (hthr : (s.mctx mctx).thr = some i) (hi : s.thr[i]? = some t)
    (h : Pxythrmgr.pxy_thrmgr_detach s mctx = some s') :
    s'.mctx = s.mctx ∧ ∃ t', s'.thr = s.thr.set i t' ∧
      t'.load = (t.load + SIZE_MOD - 1) % SIZE_MOD := by
  simp only [Pxythrmgr.pxy_thrmgr_detach, hthr, hi] at h
  cases hc : (s.mctx mctx).child_list with
  | none =>
    simp only [hc] at h
    cases hr : Pxythrmgr.pxy_thrmgr_remove_mctx s.mctx mctx t.mctx_list with
    | none => simp [hr] at h
    | some l =>
      simp only [hr, Option.some.injEq] at h
      subst h
      exact ⟨rfl, _, rfl, rfl⟩
  | some c =>
    simp only [hc, Option.some.injEq] at h
    subst h
    exact ⟨rfl, _, rfl, rfl⟩

theorem detach_child_inv (s s' : Pxythrmgr.State) (mctx : Addr) (i : Nat)
    (t : Pxythrmgr.pxy_thr_ctx_t) (hthr : (s.mctx mctx).thr = some i) (hi : s.thr[i]? = some t)
    (h : Pxythrmgr.pxy_thrmgr_detach_child s mctx = some s') :
    s'.mctx = s.mctx ∧ ∃ t', s'.thr = s.thr.set i t' ∧
      t'.load = (t.load + SIZE_MOD - 1) % SIZE_MOD := by
  by_cases hpin : (s.mctx mctx).parent_ctx = none ∧ (s.mctx mctx).child_list = none
  · simp only [Pxythrmgr.pxy_thrmgr_detach_child, hthr, hi, hpin.1, hpin.2] at h
    cases hr : Pxythrmgr.pxy_thrmgr_remove_mctx s.mctx mctx t.mctx_list with
    | none => simp [hr] at h
    | some l =>
      simp only [hr, Option.some.injEq] at h
      subst h
      exact ⟨rfl, _, rfl, rfl⟩
  · rw [detach_child_pinned s mctx i t hthr hi hpin, Option.some.injEq] at h
    subst h
    exact ⟨rfl, _, rfl, rfl⟩

theorem size_inc (n : Nat) (h : n + 1 < SIZE_MOD) : (n + 1) % SIZE_MOD = n + 1 :=
  Nat.mod_eq_of_lt h

theorem loadInv_attach (s s' : Pxythrmgr.State) (g : Pxythrmgr.Sessions) (mctx : Addr)
    (hinv : Pxythrmgr.LoadInv s g) (hb : g.top.length + g.child.length + 1 < SIZE_MOD)
    (hm : mctx ∉ g.attached) (hstep : Pxythrmgr.pxy_thrmgr_attach s mctx = some s') :
    Pxythrmgr.LoadInv s' { g with attached := mctx :: g.attached, top := mctx :: g.top } := by
  have hne : s.thr ≠ [] := by
    intro h0
    simp [Pxythrmgr.pxy_thrmgr_attach, h0] at hstep
  obtain ⟨i, t, hi, _, hatt⟩ := attach_some s mctx hne
  rw [hatt, Option.some.injEq] at hstep
  subst hstep
  have hlt := getElem?_lt_length hi
  have hold : ∀ a ∈ g.top ++ g.child, a ≠ mctx := by
    intro a ha hc
    exact hm (hc ▸ hinv.live_attached a ha)
  refine ⟨?_, ?_, ?_⟩
  · intro a ha
    by_cases hc : a = mctx
    · subst hc
      exact ⟨i, by simp, by simpa using hlt⟩
    · rcases List.mem_cons.1 ha with h1 | h1
      · exact absurd h1 hc
      · obtain ⟨k, hk, hkl⟩ := hinv.thr_valid a h1
        exact ⟨k, by simpa [Function.update_noteq hc] using hk, by simpa using hkl⟩
  · intro a ha
    rcases List.mem_cons.1 ha with h1 | h1
    · exact h1 ▸ List.mem_cons_self _ _
    · exact List.mem_cons_of_mem _ (hinv.live_attached a h1)
  · have hcongr : ∀ j, Pxythrmgr.sessionsOn
          (Function.update s.mctx mctx
            { s.mctx mctx with thr := some i, evbase := t.evbase, dnsbase := t.dnsbase })
          (mctx :: (g.top ++ g.child)) j
        = Pxythrmgr.sessionsOn s.mctx (g.top ++ g.child) j + (if i = j then 1 else 0) := by
      intro j
      rw [sessionsOn_cons _ mctx _ j i (by simp)]
      congr 1
      apply sessionsOn_congr
      intro a ha
      rw [Function.update_noteq (hold a ha)]
    apply load_eq_after_set s.thr i _ (Pxythrmgr.sessionsOn s.mctx (g.top ++ g.child)) _
      hinv.load_eq
    · show (t.load + 1) % SIZE_MOD = _
      rw [List.cons_append, hcongr, if_pos rfl, ← hinv.load_eq i t hi]
      apply size_inc
      have := sessionsOn_le s.mctx (g.top ++ g.child) i
      rw [← hinv.load_eq i t hi, List.length_append] at this
      omega
    · intro j hj
      rw [List.cons_append, hcongr, if_neg (Ne.symm hj)]
      rfl

theorem loadInv_attach_child (s s' : Pxythrmgr.State) (g : Pxythrmgr.Sessions) (mctx : Addr)
    (hinv : Pxythrmgr.LoadInv s g) (hb : g.top.length + g.child.length + 1 < SIZE_MOD)
    (hm : mctx ∈ g.attached) (hstep : Pxythrmgr.pxy_thrmgr_attach_child s mctx = some s') :
    Pxythrmgr.LoadInv s' { g with child := mctx :: g.child } := by
  obtain ⟨i, hthr, hlt⟩ := hinv.thr_valid mctx hm
  have hi : s.thr[i]? = some s.thr[i] := List.getElem?_eq_getElem hlt
  rw [attach_child_some s mctx i _ hthr hi, Option.some.injEq] at hstep
  subst hstep
  have hcnt : ∀ j, Pxythrmgr.sessionsOn s.mctx (g.top ++ mctx :: g.child) j
      = Pxythrmgr.sessionsOn s.mctx (g.top ++ g.child) j + (if i = j then 1 else 0) := by
    intro j
    rw [sessionsOn_append, sessionsOn_cons _ mctx _ j i hthr, sessionsOn_append]
    omega
  refine ⟨?_, ?_, ?_⟩
  · intro a ha
    obtain ⟨k, hk, hkl⟩ := hinv.thr_valid a ha
    exact ⟨k, hk, by simpa using hkl⟩
  · intro a ha
    rcases List.mem_append.1 ha with h1 | h1
    · exact hinv.live_attached a (List.mem_append.2 (Or.inl h1))
    · rcases List.mem_cons.1 h1 with h2 | h2
      · exact h2 ▸ hm
      · exact hinv.live_attached a (List.mem_append.2 (Or.inr h2))
  · apply load_eq_after_set s.thr i _ (Pxythrmgr.sessionsOn s.mctx (g.top ++ g.child)) _
      hinv.load_eq
    · show (s.thr[i].load + 1) % SIZE_MOD = _
      rw [hcnt, if_pos rfl, ← hinv.load_eq i _ hi]
      apply size_inc
      have := sessionsOn_le s.mctx (g.top ++ g.child) i
      rw [← hinv.load_eq i _ hi, List.length_append] at this
      omega
    · intro j hj
      rw [hcnt, if_neg (Ne.symm hj)]
      rfl

theorem loadInv_of_dec (s s' : Pxythrmgr.State) (g g' : Pxythrmgr.Sessions)
    (i : Nat) (t t' : Pxythrmgr.pxy_thr_ctx_t)
    (hinv : Pxythrmgr.LoadInv s g) (hb : g.top.length + g.child.length + 1 < SIZE_MOD)
    (hi : s.thr[i]? = some t)
    (hmem : s'.mctx = s.mctx) (hset : s'.thr = s.thr.set i t')
    (hload : t'.load = (t.load + SIZE_MOD - 1) % SIZE_MOD)
    (hatt : g'.attached = g.attached)
    (hsub : ∀ a ∈ g'.top ++ g'.child, a ∈ g.top ++ g.child)
    (hcnt : ∀ j, Pxythrmgr.sessionsOn s.mctx (g'.top ++ g'.child) j + (if i = j then 1 else 0)
      = Pxythrmgr.sessionsOn s.mctx (g.top ++ g.child) j) :
    Pxythrmgr.LoadInv s' g' := by
  refine ⟨?_, ?_, ?_⟩
  · intro a ha
    rw [hatt] at ha
    obtain ⟨k, hk, hkl⟩ := hinv.thr_valid a ha
    exact ⟨k, by rw [hmem]; exact hk, by rw [hset]; simpa using hkl⟩
  · intro a ha
    rw [hatt]
    exact hinv.live_attached a (hsub a ha)
  · rw [hset, hmem]
    apply load_eq_after_set s.thr i t' (Pxythrmgr.sessionsOn s.mctx (g.top ++ g.child)) _
      hinv.load_eq
    · have h1 := hcnt i
      rw [if_pos rfl, ← hinv.load_eq i t hi] at h1
      have h2 := sessionsOn_le s.mctx (g.top ++ g.child) i
      rw [← hinv.load_eq i t hi, List.length_append] at h2
      have h3 := size_dec t.load (by omega) (by omega)
      rw [hload]
      omega
    · intro j hj
      have h1 := hcnt j
      rw [if_neg (Ne.symm hj)] at h1
      exact h1

theorem loadInv_step (s s' : Pxythrmgr.State) (g g' : Pxythrmgr.Sessions)
    (c : Pxythrmgr.Call) (hinv : Pxythrmgr.LoadInv s g)
    (hb : g.top.length + g.child.length + 1 < SIZE_MOD)
    (hstep : Pxythrmgr.step s c = some s') (htrack : Pxythrmgr.track g c = some g') :
    Pxythrmgr.LoadInv s' g' ∧
      g'.top.length + g'.child.length ≤ g.top.length + g.child.length + 1 := by
  cases c with
  | attach mctx =>
    simp only [Pxythrmgr.track] at htrack
    by_cases hm : mctx ∈ g.attached
    · simp [hm] at htrack
    · rw [if_neg hm, Option.some.injEq] at htrack
      subst htrack
      exact ⟨loadInv_attach s s' g mctx hinv hb hm hstep, by simp only [List.length_cons]; omega⟩
  | attach_child mctx =>
    simp only [Pxythrmgr.track] at htrack
    by_cases hm : mctx ∈ g.attached
    · rw [if_pos hm, Option.some.injEq] at htrack
      subst htrack
      exact ⟨loadInv_attach_child s s' g mctx hinv hb hm hstep,
        by simp only [List.length_cons]; omega⟩
    · simp [hm] at htrack
  | detach mctx =>
    simp only [Pxythrmgr.track] at htrack
    by_cases hm : mctx ∈ g.top
    · rw [if_pos hm, Option.some.injEq] at htrack
      subst htrack
      obtain ⟨i, hthr, hlt⟩ := hinv.thr_valid mctx
        (hinv.live_attached mctx (List.mem_append.2 (Or.inl hm)))
      have hi : s.thr[i]? = some s.thr[i] := List.getElem?_eq_getElem hlt
      obtain ⟨hmem, t', hset, hload⟩ := detach_inv s s' mctx i _ hthr hi hstep
      refine ⟨loadInv_of_dec s s' g _ i _ t' hinv hb hi hmem hset hload rfl ?_ ?_, ?_⟩
      · intro a ha
        rcases List.mem_append.1 ha with h1 | h1
        · exact List.mem_append.2 (Or.inl (List.mem_of_mem_erase h1))
        · exact List.mem_append.2 (Or.inr h1)
      · intro j
        have h1 := sessionsOn_erase s.mctx mctx g.top j i hthr hm
        rw [sessionsOn_append, sessionsOn_append]
        simp only at h1 ⊢
        omega
      · have := List.length_erase_le mctx g.top
        simp only
        omega
    · simp [hm] at htrack
  | detach_child mctx =>
    simp only [Pxythrmgr.track] at htrack
    by_cases hm : mctx ∈ g.child
    · rw [if_pos hm, Option.some.injEq] at htrack
      subst htrack
      obtain ⟨i, hthr, hlt⟩ := hinv.thr_valid mctx
        (hinv.live_attached mctx (List.mem_append.2 (Or.inr hm)))
      have hi : s.thr[i]? = some s.thr[i] := List.getElem?_eq_getElem hlt
      obtain ⟨hmem, t', hset, hload⟩ := detach_child_inv s s' mctx i _ hthr hi hstep
      refine ⟨loadInv_of_dec s s' g _ i _ t' hinv hb hi hmem hset hload rfl ?_ ?_, ?_⟩
      · intro a ha
        rcases List.mem_append.1 ha with h1 | h1
        · exact List.mem_append.2 (Or.inl h1)
        · exact List.mem_append.2 (Or.inr (List.mem_of_mem_erase h1))
      · intro j
        have h1 := sessionsOn_erase s.mctx mctx g.child j i hthr hm
        rw [sessionsOn_append, sessionsOn_append]
        simp only at h1 ⊢
        omega
      · have := List.length_erase_le mctx g.child
        simp only
        omega
    · simp [hm] at htrack
  | set_links mctx p q =>
    simp only [Pxythrmgr.track, Option.some.injEq] at htrack
    simp only [Pxythrmgr.step, Option.some.injEq] at hstep
    subst htrack hstep
    have hsame : ∀ a, ((Pxythrmgr.set_links s mctx p q).mctx a).thr = (s.mctx a).thr := by
      intro a
      by_cases ha : a = mctx
      · subst ha; exact (set_links_self s a p q).1
      · simp [Pxythrmgr.set_links, Function.update_noteq ha]
    refine ⟨⟨?_, hinv.live_attached, ?_⟩, by omega⟩
    · intro a ha
      obtain ⟨k, hk, hkl⟩ := hinv.thr_valid a ha
      exact ⟨k, (hsame a).trans hk, hkl⟩
    · intro i t hi
      rw [sessionsOn_congr s.mctx _ _ i (fun a _ => hsame a)]
      exact hinv.load_eq i t hi

theorem loadInv_run (cs : List Pxythrmgr.Call) :
    ∀ (s s' : Pxythrmgr.State) (g g' : Pxythrmgr.Sessions), Pxythrmgr.LoadInv s g →
      g.top.length + g.child.length + cs.length < SIZE_MOD →
      Pxythrmgr.run s cs = some s' → Pxythrmgr.trackAll g cs = some g' →
      Pxythrmgr.LoadInv s' g' := by
  induction cs with
  | nil =>
    intro s s' g g' hinv _ hrun htrack
    simp only [Pxythrmgr.run, Pxythrmgr.trackAll, Option.some.injEq] at hrun htrack
    subst hrun htrack
    exact hinv
  | cons c cs ih =>
    intro s s' g g' hinv hb hrun htrack
    simp only [Pxythrmgr.run, Pxythrmgr.trackAll] at hrun htrack
    cases h1 : Pxythrmgr.step s c with
    | none => simp [h1] at hrun
    | some s1 =>
      cases h2 : Pxythrmgr.track g c with
      | none => simp [h2] at htrack
      | some g1 =>
        rw [h1, Option.some_bind] at hrun
        rw [h2, Option.some_bind] at htrack
        simp only [List.length_cons] at hb
        obtain ⟨hinv1, hlen1⟩ := loadInv_step s s1 g g1 c hinv (by omega) h1 h2
        exact ih s1 s' g1 g' hinv1 (by omega) hrun htrack

theorem loadInv_init (s : Pxythrmgr.State) (hzero : ∀ t ∈ s.thr, t.load = 0) :
    Pxythrmgr.LoadInv s ⟨[], [], []⟩ := by
  refine ⟨?_, ?_, ?_⟩
  · intro a ha; exact absurd ha (List.not_mem_nil a)
  · intro a ha; exact absurd ha (by simp)
  · intro i t hi
    rw [hzero t (List.getElem?_mem hi)]
    simp [Pxythrmgr.sessionsOn]

/-- C3: start from a pool whose workers all have load `0` and run a sequence of
`pxy_thrmgr_attach`, `pxy_thrmgr_attach_child`, `pxy_thrmgr_detach` and
`pxy_thrmgr_detach_child` calls (with any writes of the link fields in between)
that keeps the discipline: records are attached as new records, child sessions
are attached to attached records, and a top-level or child session is detached
only while it is attached and not yet detached.  Then the sum of the load
counters is the number of top-level and child sessions attached and not yet
detached. -/
theorem load_conservation
    (s0 s : Pxythrmgr.State) (calls : List Pxythrmgr.Call) (g : Pxythrmgr.Sessions)
    (hzero : ∀ t ∈ s0.thr, t.load = 0) (hlen : calls.length < SIZE_MOD)
    (hdisc : Pxythrmgr.trackAll ⟨[], [], []⟩ calls = some g)
    (hrun : Pxythrmgr.run s0 calls = some s) :
    (s.thr.map (fun t => t.load)).sum = g.top.length + g.child.length := by
  have hinv := loadInv_run calls s0 s ⟨[], [], []⟩ g (loadInv_init s0 hzero)
    (by simpa using hlen) hrun hdisc
  exact sum_loads_eq s g hinv

/-- Witness of C3: after the example run on an idle pool of two workers one
session (the top-level session of record `8`) is left, and the loads sum up to
`1`. -/
theorem load_conservation_witness :
    Pxythrmgr.trackAll ⟨[], [], []⟩ Pxythrmgr.exampleCalls = some ⟨[8, 7], [8], []⟩ ∧
    (Pxythrmgr.run Pxythrmgr.idleState Pxythrmgr.exampleCalls).map
      (fun s => (s.thr.map (fun t => t.load)).sum) = some 1 := by
  refine ⟨by decide, ?_⟩
  cases h : Pxythrmgr.run Pxythrmgr.idleState Pxythrmgr.exampleCalls with
  | none =>
    have hsome : (Pxythrmgr.run Pxythrmgr.idleState Pxythrmgr.exampleCalls).isSome = true := by
      decide
    rw [h] at hsome
    exact absurd hsome (by decide)
  | some s =>
    have hsum := load_conservation Pxythrmgr.idleState s Pxythrmgr.exampleCalls
      ⟨[8, 7], [8], []⟩ (by decide) (by decide) (by decide) h
    rw [Option.map_some', hsum]
    rfl

/-! ### Unsigned wrap of the idle time -/

theorem elapsed_time_of_gt (now access_time : Int) (hlt : now < access_time)
    (hdiff : time_t_range (now - access_time)) :
    ((Pxythrmgr.elapsed_time now access_time : Nat) : Int)
      = (2 : Int) ^ 64 - (access_time - now) := by
  unfold time_t_range at hdiff
  unfold Pxythrmgr.elapsed_time SIZE_MOD
  have hmod : (now - access_time) % ((2 ^ 64 : Nat) : Int)
      = now - access_time + (2 : Int) ^ 64 := by
    have h1 : (now - access_time) % ((2 ^ 64 : Nat) : Int)
        = (now - access_time + ((2 ^ 64 : Nat) : Int)) % ((2 ^ 64 : Nat) : Int) := by
      rw [Int.add_emod_self]
    rw [h1]
    have h2 : now - access_time + ((2 ^ 64 : Nat) : Int) = now - access_time + (2 : Int) ^ 64 := by
      norm_num
    rw [h2]
    apply Int.emod_eq_of_lt
    · omega
    · have : ((2 ^ 64 : Nat) : Int) = (2 : Int) ^ 64 := by norm_num
      rw [this]
      omega
  rw [hmod, Int.toNat_of_nonneg (by omega)]
  omega

/-- C12: for a registry record whose `access_time` is later than `now` (the
difference `now - access_time` being a negative `time_t` value),
`pxy_thrmgr_get_thr_expired_conns` computes the elapsed time as the unsigned
value `2 ^ 64 - (access_time - now)`, which is above `30`, and the record is
in the chain of expired records. -/
theorem expired_on_clock_step_back
    (mem : Addr → Pxythrmgr.proxy_conn_meta_ctx_t) (ctx : Pxythrmgr.pxy_thr_ctx_t)
    (now : Int) (a : Addr) (ha : a ∈ ctx.mctx_list) (hlt : now < (mem a).access_time)
    (hdiff : time_t_range (now - (mem a).access_time)) :
    ((Pxythrmgr.elapsed_time now (mem a).access_time : Nat) : Int)
      = (2 : Int) ^ 64 - ((mem a).access_time - now) ∧
    Pxythrmgr.elapsed_time now (mem a).access_time > Pxythrmgr.CONN_EXPIRE_TIME ∧
    a ∈ Pxythrmgr.pxy_thrmgr_get_thr_expired_conns mem ctx now ∧
    a ∈ (Pxythrmgr.pxy_thrmgr_timer_cb mem ctx now).1 := by
  have hel := elapsed_time_of_gt now (mem a).access_time hlt hdiff
  have hgt : Pxythrmgr.elapsed_time now (mem a).access_time > Pxythrmgr.CONN_EXPIRE_TIME := by
    unfold time_t_range at hdiff
    unfold Pxythrmgr.CONN_EXPIRE_TIME
    have : ((30 : Nat) : Int) < ((Pxythrmgr.elapsed_time now (mem a).access_time : Nat) : Int) := by
      rw [hel]
      omega
    exact_mod_cast this
  have hin : a ∈ Pxythrmgr.pxy_thrmgr_get_thr_expired_conns mem ctx now := by
    unfold Pxythrmgr.pxy_thrmgr_get_thr_expired_conns
    rw [expired_walk_eq, List.append_nil, List.mem_reverse, List.mem_filter]
    exact ⟨ha, decide_eq_true hgt⟩
  exact ⟨hel, hgt, hin, by rw [timer_cb_fst]; exact hin⟩

/-- Witness of C12: at time `50` record `1`, last accessed at time `90`, has the
elapsed time `2 ^ 64 - 40` and is collected, as are the other three records,
which were accessed at `80`, `70` and `60`. -/
theorem expired_on_clock_step_back_witness :
    ((Pxythrmgr.elapsed_time 50 (Pxythrmgr.sweepState.mctx 1).access_time : Nat) : Int)
      = (2 : Int) ^ 64 - ((Pxythrmgr.sweepState.mctx 1).access_time - 50) ∧
    (1 : Addr) ∈ Pxythrmgr.pxy_thrmgr_get_thr_expired_conns Pxythrmgr.sweepState.mctx
      { Pxythrmgr.workerOfLoad 4 with mctx_list := [1, 2, 3, 4] } 50 ∧
    Pxythrmgr.pxy_thrmgr_get_thr_expired_conns Pxythrmgr.sweepState.mctx
      { Pxythrmgr.workerOfLoad 4 with mctx_list := [1, 2, 3, 4] } 50 = [4, 3, 2, 1] :=
  have h := expired_on_clock_step_back Pxythrmgr.sweepState.mctx
    { Pxythrmgr.workerOfLoad 4 with mctx_list := [1, 2, 3, 4] } 50 1 (by decide) (by decide)
    (by simp [time_t_range, Pxythrmgr.sweepState, Pxythrmgr.freshRecord])
  ⟨h.1, h.2.2.1, by decide⟩

/-! ### Startup atomicity -/

theorem count_eq_zero_of_alloc_only (l : List RunEvent) (e : RunEvent)
    (hall : ∀ x ∈ l, ∃ j r, x = RunEvent.alloc j r) (he : ∀ j r, e ≠ RunEvent.alloc j r) :
    l.count e = 0 := by
  apply List.count_eq_zero.2
  intro hin
  obtain ⟨j, r, hx⟩ := hall e hin
  exact he j r hx

theorem count_eq_zero_of_release_only (l : List RunEvent) (e : RunEvent)
    (hall : ∀ x ∈ l, ∃ j r, x = RunEvent.release j r) (he : ∀ j r, e ≠ RunEvent.release j r) :
    l.count e = 0 := by
  apply List.count_eq_zero.2
  intro hin
  obtain ⟨j, r, hx⟩ := hall e hin
  exact he j r hx

theorem run_init_loop_fail {σ : Type} (init : Nat → Option σ × List RunEvent × Bool)
    (hslot : ∀ j e, e ∈ (init j).2.1 → ∃ r, e = RunEvent.alloc j r) (k : Nat)
    (hk : (init k).2.2 = false) :
    ∀ (fuel idx : Nat) (thr : List (Option σ)) (trace : List RunEvent),
      idx ≤ k → k < idx + fuel → k < thr.length →
      (∀ j, idx ≤ j → j < k → (init j).2.2 = true) →
      ∃ thr' tr', run_init_loop init fuel idx thr trace = (thr', trace ++ tr', some k) ∧
        (∀ j, idx ≤ j → j ≤ k → thr'[j]? = some (init j).1) ∧
        (∀ j, j < idx → thr'[j]? = thr[j]?) ∧
        (∀ x ∈ tr', ∃ j r, x = RunEvent.alloc j r) ∧
        (∀ j r, tr'.count (RunEvent.alloc j r)
          = if idx ≤ j ∧ j ≤ k then (init j).2.1.count (RunEvent.alloc j r) else 0) := by
  intro fuel
  induction fuel with
  | zero => intro idx thr trace h1 h2; omega
  | succ fuel ih =>
    intro idx thr trace h1 h2 hlen hok
    rcases hinit : init idx with ⟨slot, evs, b⟩
    have hevs : evs = (init idx).2.1 := by rw [hinit]
    have hslotv : slot = (init idx).1 := by rw [hinit]
    have hother : ∀ j r, j ≠ idx → evs.count (RunEvent.alloc j r) = 0 := by
      intro j r hj
      apply List.count_eq_zero.2
      intro hin
      obtain ⟨r', hr'⟩ := hslot idx _ (hevs ▸ hin)
      injection hr' with h1' _
      exact hj h1'
    by_cases hik : idx = k
    · subst hik
      have hb : b = false := by rw [hinit] at hk; exact hk
      subst hb
      refine ⟨thr.set idx slot, evs, by simp only [run_init_loop, hinit], ?_, ?_, ?_, ?_⟩
      · intro j hj1 hj2
        have hj : j = idx := by omega
        subst hj
        rw [List.getElem?_set_self hlen, hslotv]
      · intro j hj
        exact List.getElem?_set_ne (by omega)
      · intro x hx
        obtain ⟨r, hr⟩ := hslot idx x (hevs ▸ hx)
        exact ⟨idx, r, hr⟩
      · intro j r
        by_cases hj : j = idx
        · subst hj
          rw [if_pos ⟨le_refl _, le_refl _⟩, hevs]
        · rw [if_neg (by omega)]
          exact hother j r hj
    · have hlt : idx < k := by omega
      have hb : b = true := by
        have := hok idx (le_refl _) hlt
        rw [hinit] at this
        exact this
      subst hb
      obtain ⟨thr', tr', hrun, hthr, hbelow, hall, hcnt⟩ := ih (idx + 1) (thr.set idx slot)
        (trace ++ evs) (by omega) (by omega) (by simpa using hlen)
        (fun j hj1 hj2 => hok j (by omega) hj2)
      refine ⟨thr', evs ++ tr', ?_, ?_, ?_, ?_, ?_⟩
      · simp only [run_init_loop, hinit]
        rw [hrun, List.append_assoc]
      · intro j hj1 hj2
        by_cases hj : j = idx
        · subst hj
          rw [hbelow j (by omega), List.getElem?_set_self (by omega), hslotv]
        · exact hthr j (by omega) hj2
      · intro j hj
        rw [hbelow j (by omega)]
        exact List.getElem?_set_ne (by omega)
      · intro x hx
        rcases List.mem_append.1 hx with h | h
        · obtain ⟨r, hr⟩ := hslot idx x (hevs ▸ h)
          exact ⟨idx, r, hr⟩
        · exact hall x h
      · intro j r
        rw [List.count_append, hcnt j r]
        by_cases hj : j = idx
        · subst hj
          rw [if_neg (by omega), if_pos ⟨le_refl _, by omega⟩, hevs]
          rfl
        · rw [hother j r hj]
          by_cases hj2 : idx + 1 ≤ j ∧ j ≤ k
          · rw [if_pos hj2, if_pos ⟨by omega, hj2.2⟩]
            omega
          · rw [if_neg hj2, if_neg (by omega)]

theorem run_leave_loop_count {σ : Type} (leave : Nat → Option σ → List RunEvent)
    (thr : List (Option σ))
    (hslot : ∀ i s e, e ∈ leave i s → ∃ r, e = RunEvent.release i r) :
    ∀ n, (∀ x ∈ run_leave_loop leave thr n, ∃ j r, x = RunEvent.release j r) ∧
      ∀ j r, (run_leave_loop leave thr n).count (RunEvent.release j r)
        = if j < n then (leave j (thr.getD j none)).count (RunEvent.release j r) else 0 := by
  intro n
  induction n with
  | zero =>
    refine ⟨fun x hx => absurd hx (by simp [run_leave_loop]), fun j r => ?_⟩
    simp [run_leave_loop]
  | succ n ih =>
    refine ⟨?_, ?_⟩
    · intro x hx
      simp only [run_leave_loop] at hx
      rcases List.mem_append.1 hx with h | h
      · obtain ⟨r, hr⟩ := hslot n _ x h
        exact ⟨n, r, hr⟩
      · exact ih.1 x h
    · intro j r
      simp only [run_leave_loop]
      rw [List.count_append, ih.2 j r]
      by_cases hj : j = n
      · subst hj
        rw [if_neg (by omega), if_pos (by omega)]
        rfl
      · have h0 : (leave n (thr.getD n none)).count (RunEvent.release j r) = 0 := by
          apply List.count_eq_zero.2
          intro hin
          obtain ⟨r', hr'⟩ := hslot n _ _ hin
          injection hr' with h1 _
          exact hj h1
        rw [h0]
        by_cases hj2 : j < n
        · rw [if_pos hj2, if_pos (by omega)]; omega
        · rw [if_neg hj2, if_neg (by omega)]

theorem run_init_slot_ok (env : RunEnv) (idx : Nat) :
    (Pxythrmgr.run_init_slot env idx).2.2 = Pxythrmgr.run_slot_ok env idx := by
  unfold Pxythrmgr.run_init_slot Pxythrmgr.run_slot_ok
  cases env.alloc_ok idx .ctx <;> cases env.alloc_ok idx .evbase <;> cases env.dns <;>
    cases env.alloc_ok idx .dnsbase <;> rfl

theorem run_init_slot_alloc_only (env : RunEnv) (idx : Nat) (e : RunEvent)
    (he : e ∈ (Pxythrmgr.run_init_slot env idx).2.1) : ∃ r, e = RunEvent.alloc idx r := by
  unfold Pxythrmgr.run_init_slot at he
  cases h1 : env.alloc_ok idx .ctx <;> cases h2 : env.alloc_ok idx .evbase <;>
    cases h3 : env.dns <;> cases h4 : env.alloc_ok idx .dnsbase <;>
    simp [h1, h2, h3, h4] at he <;> aesop

theorem run_leave_slot_release_only (idx : Nat) (s : Option Pxythrmgr.pxy_thr_ctx_t)
    (e : RunEvent) (he : e ∈ Pxythrmgr.run_leave_slot idx s) :
    ∃ r, e = RunEvent.release idx r := by
  cases s with
  | none => simp [Pxythrmgr.run_leave_slot] at he
  | some t =>
    simp only [Pxythrmgr.run_leave_slot, List.mem_append, List.mem_singleton] at he
    rcases he with (h | h) | h
    · split at h
      · exact ⟨_, List.mem_singleton.1 h⟩
      · exact absurd h (List.not_mem_nil _)
    · split at h
      · exact ⟨_, List.mem_singleton.1 h⟩
      · exact absurd h (List.not_mem_nil _)
    · exact ⟨_, h⟩

theorem run_slot_balance (env : RunEnv) (idx : Nat) (r : RunRes) :
    (Pxythrmgr.run_leave_slot idx (Pxythrmgr.run_init_slot env idx).1).count
        (RunEvent.release idx r)
      = (Pxythrmgr.run_init_slot env idx).2.1.count (RunEvent.alloc idx r) ∧
    (Pxythrmgr.run_init_slot env idx).2.1.count (RunEvent.alloc idx r) ≤ 1 := by
  unfold Pxythrmgr.run_init_slot
  cases env.alloc_ok idx .ctx <;> cases env.alloc_ok idx .evbase <;> cases env.dns <;>
    cases env.alloc_ok idx .dnsbase <;> cases r <;>
    simp [Pxythrmgr.run_leave_slot, Pxythrmgr.zeroed, List.count_cons]

theorem getD_of_getElem? {σ : Type} (l : List (Option σ)) (j : Nat) (v : Option σ)
    (h : l[j]? = some v) : l.getD j none = v := by
  rw [List.getD_eq_getElem?_getD, h]
  rfl

/-- Startup atomicity of src/pxythrmgr.c: when the allocations of the slots
before `k` succeed and one of slot `k` fails, `pxy_thrmgr_run` returns `-1`
with `ctx->thr` reset to NULL, starts no thread, and releases each resource of
each slot exactly as often as it was allocated, which is at most once. -/
theorem run_rolls_back_on_alloc_failure (env : RunEnv) (num_thr k : Nat)
    (harr : env.array_ok = true) (hk : k < num_thr)
    (hbefore : ∀ j, j < k → Pxythrmgr.run_slot_ok env j = true)
    (hfail : Pxythrmgr.run_slot_ok env k = false) :
    (Pxythrmgr.pxy_thrmgr_run env num_thr).ret = -1 ∧
    (Pxythrmgr.pxy_thrmgr_run env num_thr).thr = none ∧
    (∀ idx, RunEvent.thread_create idx ∉ (Pxythrmgr.pxy_thrmgr_run env num_thr).trace) ∧
    (∀ j r, (Pxythrmgr.pxy_thrmgr_run env num_thr).trace.count (RunEvent.release j r)
        = (Pxythrmgr.pxy_thrmgr_run env num_thr).trace.count (RunEvent.alloc j r) ∧
      (Pxythrmgr.pxy_thrmgr_run env num_thr).trace.count (RunEvent.alloc j r) ≤ 1) := by
  obtain ⟨thr', tr', hrun, hthr, _, hall, hcnt⟩ :=
    run_init_loop_fail (Pxythrmgr.run_init_slot env) (run_init_slot_alloc_only env) k
      (by rw [run_init_slot_ok]; exact hfail) num_thr 0 (List.replicate num_thr none)
      [.pool_mutex_init, .array_alloc] (Nat.zero_le _) (by omega) (by simpa using hk)
      (fun j _ hj => by rw [run_init_slot_ok]; exact hbefore j hj)
  obtain ⟨hlall, hlcnt⟩ := run_leave_loop_count Pxythrmgr.run_leave_slot thr'
    run_leave_slot_release_only (k + 1)
  have hres : Pxythrmgr.pxy_thrmgr_run env num_thr =
      { ret := -1, thr := none,
        trace := ([.pool_mutex_init, .array_alloc] ++ tr') ++
          run_leave_loop Pxythrmgr.run_leave_slot thr' (k + 1) ++
          [.pool_mutex_destroy, .array_free] } := by
    unfold Pxythrmgr.pxy_thrmgr_run
    rw [if_pos harr, hrun]
  rw [hres]
  refine ⟨rfl, rfl, ?_, ?_⟩
  · intro idx hin
    simp only [List.mem_append, List.mem_cons, List.mem_singleton, List.not_mem_nil,
      or_false] at hin
    rcases hin with ((h | h) | h) | h
    · rcases h with h | h <;> exact RunEvent.noConfusion h
    · obtain ⟨j, r, hx⟩ := hall _ h
      exact RunEvent.noConfusion hx
    · obtain ⟨j, r, hx⟩ := hlall _ h
      exact RunEvent.noConfusion hx
    · rcases h with h | h <;> exact RunEvent.noConfusion h
  · intro j r
    have h1 : tr'.count (RunEvent.release j r) = 0 :=
      count_eq_zero_of_alloc_only tr' _ hall (fun _ _ h => RunEvent.noConfusion h)
    have h2 : (run_leave_loop Pxythrmgr.run_leave_slot thr' (k + 1)).count
        (RunEvent.alloc j r) = 0 :=
      count_eq_zero_of_release_only _ _ hlall (fun _ _ h => RunEvent.noConfusion h)
    have hrel : (([RunEvent.pool_mutex_init, RunEvent.array_alloc] ++ tr') ++
          run_leave_loop Pxythrmgr.run_leave_slot thr' (k + 1) ++
          [RunEvent.pool_mutex_destroy, RunEvent.array_free]).count (RunEvent.release j r)
        = (run_leave_loop Pxythrmgr.run_leave_slot thr' (k + 1)).count
            (RunEvent.release j r) := by
      simp [List.count_append, List.count_cons, h1]
    have hal : (([RunEvent.pool_mutex_init, RunEvent.array_alloc] ++ tr') ++
          run_leave_loop Pxythrmgr.run_leave_slot thr' (k + 1) ++
          [RunEvent.pool_mutex_destroy, RunEvent.array_free]).count (RunEvent.alloc j r)
        = tr'.count (RunEvent.alloc j r) := by
      simp [List.count_append, List.count_cons, h2]
    simp only [hrel, hal, hlcnt j r, hcnt j r]
    by_cases hj : j ≤ k
    · rw [if_pos (by omega), if_pos ⟨Nat.zero_le _, hj⟩,
        getD_of_getElem? thr' j _ (hthr j (Nat.zero_le _) hj)]
      exact run_slot_balance env j r
    · rw [if_neg (by omega), if_neg (by omega)]
      exact ⟨rfl, Nat.zero_le _⟩

theorem src_run_init_slot_ok (env : RunEnv) (idx : Nat) :
    (SrcPxythrmgr.run_init_slot env idx).2.2 = SrcPxythrmgr.run_slot_ok env idx := by
  unfold SrcPxythrmgr.run_init_slot SrcPxythrmgr.run_slot_ok
  cases env.alloc_ok idx .ctx <;> cases env.alloc_ok idx .evbase <;> cases env.dns <;>
    cases env.alloc_ok idx .dnsbase <;> cases env.userauth <;>
    cases env.alloc_ok idx .get_user <;> cases env.alloc_ok idx .mutex <;> rfl

theorem src_run_init_slot_alloc_only (env : RunEnv) (idx : Nat) (e : RunEvent)
    (he : e ∈ (SrcPxythrmgr.run_init_slot env idx).2.1) : ∃ r, e = RunEvent.alloc idx r := by
  unfold SrcPxythrmgr.run_init_slot at he
  cases h1 : env.alloc_ok idx .ctx <;> cases h2 : env.alloc_ok idx .evbase <;>
    cases h3 : env.dns <;> cases h4 : env.alloc_ok idx .dnsbase <;>
    cases h5 : env.userauth <;> cases h6 : env.alloc_ok idx .get_user <;>
    cases h7 : env.alloc_ok idx .mutex <;>
    simp [h1, h2, h3, h4, h5, h6, h7] at he <;> aesop

theorem src_run_leave_slot_release_only (env : RunEnv) (idx : Nat)
    (s : Option SrcPxythrmgr.pxy_thr_run_ctx_t) (e : RunEvent)
    (he : e ∈ SrcPxythrmgr.run_leave_slot env idx s) :
    ∃ r, e = RunEvent.release idx r := by
  cases s with
  | none => simp [SrcPxythrmgr.run_leave_slot] at he
  | some t =>
    simp only [SrcPxythrmgr.run_leave_slot, List.mem_append, List.mem_cons,
      List.mem_singleton, List.not_mem_nil, or_false] at he
    rcases he with ((h | h) | h) | h
    · split at h
      · exact ⟨_, List.mem_singleton.1 h⟩
      · exact absurd h (List.not_mem_nil _)
    · split at h
      · exact ⟨_, List.mem_singleton.1 h⟩
      · exact absurd h (List.not_mem_nil _)
    · split at h
      · exact ⟨_, List.mem_singleton.1 h⟩
      · exact absurd h (List.not_mem_nil _)
    · rcases h with h | h
      · exact ⟨_, h⟩
      · exact ⟨_, h⟩

set_option maxHeartbeats 2000000 in
theorem src_run_slot_balance (env : RunEnv) (idx : Nat) (r : RunRes)
    (h : r ≠ RunRes.mutex ∨ SrcPxythrmgr.run_slot_ok env idx = true ∨
      env.alloc_ok idx .ctx = false) :
    (SrcPxythrmgr.run_leave_slot env idx (SrcPxythrmgr.run_init_slot env idx).1).count
        (RunEvent.release idx r)
      = (SrcPxythrmgr.run_init_slot env idx).2.1.count (RunEvent.alloc idx r) ∧
    (SrcPxythrmgr.run_init_slot env idx).2.1.count (RunEvent.alloc idx r) ≤ 1 := by
  unfold SrcPxythrmgr.run_slot_ok at h
  unfold SrcPxythrmgr.run_init_slot
  cases h1 : env.alloc_ok idx .ctx <;> cases h2 : env.alloc_ok idx .evbase <;>
    cases h3 : env.dns <;> cases h4 : env.alloc_ok idx .dnsbase <;>
    cases h5 : env.userauth <;> cases h6 : env.alloc_ok idx .get_user <;>
    cases h7 : env.alloc_ok idx .mutex <;> cases r <;>
    simp [h1, h2, h3, h4, h5, h6, h7] at h <;>
    simp [SrcPxythrmgr.run_leave_slot, SrcPxythrmgr.zeroed, List.count_cons, h5]

theorem src_run_slot_mutex (env : RunEnv) (idx : Nat)
    (hctx : env.alloc_ok idx .ctx = true) (hfail : SrcPxythrmgr.run_slot_ok env idx = false) :
    (SrcPxythrmgr.run_leave_slot env idx (SrcPxythrmgr.run_init_slot env idx).1).count
        (RunEvent.release idx .mutex) = 1 ∧
    (SrcPxythrmgr.run_init_slot env idx).2.1.count (RunEvent.alloc idx .mutex) = 0 := by
  unfold SrcPxythrmgr.run_slot_ok at hfail
  unfold SrcPxythrmgr.run_init_slot
  cases h2 : env.alloc_ok idx .evbase <;>
    cases h3 : env.dns <;> cases h4 : env.alloc_ok idx .dnsbase <;>
    cases h5 : env.userauth <;> cases h6 : env.alloc_ok idx .get_user <;>
    cases h7 : env.alloc_ok idx .mutex <;>
    simp [hctx, h2, h3, h4, h5, h6, h7] at hfail <;>
    simp [SrcPxythrmgr.run_leave_slot, SrcPxythrmgr.zeroed, List.count_cons, hctx, h5]

/-- Startup of src/src/pxythrmgr.c with a failing allocation: when the
allocations of the slots before `k` succeed and one of slot `k` fails,
`pxy_thrmgr_run` returns `-1` with `ctx->thr` reset to NULL and starts no
thread; each resource is released exactly as often as it was allocated, at
most once, save the mutex of slot `k`: when the worker context of slot `k` was
allocated, that mutex is destroyed once although it was never initialised. -/
theorem src_run_rolls_back_save_mutex (env : RunEnv) (num_thr k : Nat)
    (harr : env.array_ok = true) (hk : k < num_thr)
    (hbefore : ∀ j, j < k → SrcPxythrmgr.run_slot_ok env j = true)
    (hfail : SrcPxythrmgr.run_slot_ok env k = false) :
    (SrcPxythrmgr.pxy_thrmgr_run env num_thr).ret = -1 ∧
    (SrcPxythrmgr.pxy_thrmgr_run env num_thr).thr = none ∧
    (∀ idx, RunEvent.thread_create idx ∉ (SrcPxythrmgr.pxy_thrmgr_run env num_thr).trace) ∧
    (∀ j r, (j ≠ k ∨ r ≠ RunRes.mutex ∨ env.alloc_ok k .ctx = false) →
      (SrcPxythrmgr.pxy_thrmgr_run env num_thr).trace.count (RunEvent.release j r)
        = (SrcPxythrmgr.pxy_thrmgr_run env num_thr).trace.count (RunEvent.alloc j r) ∧
      (SrcPxythrmgr.pxy_thrmgr_run env num_thr).trace.count (RunEvent.alloc j r) ≤ 1) ∧
    (env.alloc_ok k .ctx = true →
      (SrcPxythrmgr.pxy_thrmgr_run env num_thr).trace.count (RunEvent.release k .mutex) = 1 ∧
      (SrcPxythrmgr.pxy_thrmgr_run env num_thr).trace.count (RunEvent.alloc k .mutex) = 0) := by
  obtain ⟨thr', tr', hrun, hthr, _, hall, hcnt⟩ :=
    run_init_loop_fail (SrcPxythrmgr.run_init_slot env) (src_run_init_slot_alloc_only env) k
      (by rw [src_run_init_slot_ok]; exact hfail) num_thr 0 (List.replicate num_thr none)
      [.array_alloc] (Nat.zero_le _) (by omega) (by simpa using hk)
      (fun j _ hj => by rw [src_run_init_slot_ok]; exact hbefore j hj)
  obtain ⟨hlall, hlcnt⟩ := run_leave_loop_count (SrcPxythrmgr.run_leave_slot env) thr'
    (src_run_leave_slot_release_only env) (k + 1)
  have hres : SrcPxythrmgr.pxy_thrmgr_run env num_thr =
      { ret := -1, thr := none,
        trace := ([.array_alloc] ++ tr') ++
          run_leave_loop (SrcPxythrmgr.run_leave_slot env) thr' (k + 1) ++ [.array_free] } := by
    unfold SrcPxythrmgr.pxy_thrmgr_run
    rw [if_pos harr, hrun]
  have hrel : ∀ j r, (([RunEvent.array_alloc] ++ tr') ++
        run_leave_loop (SrcPxythrmgr.run_leave_slot env) thr' (k + 1) ++
        [RunEvent.array_free]).count (RunEvent.release j r)
      = if j < k + 1 then
          (SrcPxythrmgr.run_leave_slot env j (thr'.getD j none)).count (RunEvent.release j r)
        else 0 := by
    intro j r
    have h1 : tr'.count (RunEvent.release j r) = 0 :=
      count_eq_zero_of_alloc_only tr' _ hall (fun _ _ h => RunEvent.noConfusion h)
    rw [← hlcnt j r]
    simp [List.count_append, List.count_cons, h1]
  have hal : ∀ j r, (([RunEvent.array_alloc] ++ tr') ++
        run_leave_loop (SrcPxythrmgr.run_leave_slot env) thr' (k + 1) ++
        [RunEvent.array_free]).count (RunEvent.alloc j r)
      = if 0 ≤ j ∧ j ≤ k then
          (SrcPxythrmgr.run_init_slot env j).2.1.count (RunEvent.alloc j r)
        else 0 := by
    intro j r
    have h2 : (run_leave_loop (SrcPxythrmgr.run_leave_slot env) thr' (k + 1)).count
        (RunEvent.alloc j r) = 0 :=
      count_eq_zero_of_release_only _ _ hlall (fun _ _ h => RunEvent.noConfusion h)
    rw [← hcnt j r]
    simp [List.count_append, List.count_cons, h2]
  rw [hres]
  refine ⟨rfl, rfl, ?_, ?_, ?_⟩
  · intro idx hin
    simp only [List.mem_append, List.mem_cons, List.mem_singleton, List.not_mem_nil,
      or_false] at hin
    rcases hin with ((h | h) | h) | h
    · exact RunEvent.noConfusion h
    · obtain ⟨j, r, hx⟩ := hall _ h
      exact RunEvent.noConfusion hx
    · obtain ⟨j, r, hx⟩ := hlall _ h
      exact RunEvent.noConfusion hx
    · exact RunEvent.noConfusion h
  · intro j r hjr
    simp only [hrel, hal]
    by_cases hj : j ≤ k
    · rw [if_pos (by omega), if_pos ⟨Nat.zero_le _, hj⟩,
        getD_of_getElem? thr' j _ (hthr j (Nat.zero_le _) hj)]
      apply src_run_slot_balance env j r
      by_cases hjk : j = k
      · subst hjk
        rcases hjr with h | h | h
        · exact absurd rfl h
        · exact Or.inl h
        · exact Or.inr (Or.inr h)
      · exact Or.inr (Or.inl (hbefore j (by omega)))
    · rw [if_neg (by omega), if_neg (by omega)]
      exact ⟨rfl, Nat.zero_le _⟩
  · intro hctx
    simp only [hrel, hal]
    rw [if_pos (by omega), if_pos ⟨Nat.zero_le _, le_refl _⟩,
      getD_of_getElem? thr' k _ (hthr k (Nat.zero_le _) (le_refl _))]
    exact src_run_slot_mutex env k hctx hfail

/-- C11 at the failing input: with two worker slots in src/src/pxythrmgr.c and
`event_base_new` failing for slot `1`, `pxy_thrmgr_run` returns `-1`, resets
`ctx->thr` to NULL and starts no thread, but its cleanup destroys the mutex of
slot `1`, which was never initialised; under the same surroundings
`pxy_thrmgr_run` of src/pxythrmgr.c releases exactly what it allocated. -/
theorem src_run_destroys_uninitialised_mutex :
    (SrcPxythrmgr.pxy_thrmgr_run evbaseFailsAtSlot1 2).ret = -1 ∧
    (SrcPxythrmgr.pxy_thrmgr_run evbaseFailsAtSlot1 2).thr = none ∧
    (SrcPxythrmgr.pxy_thrmgr_run evbaseFailsAtSlot1 2).trace =
      [.array_alloc,
       .alloc 0 .ctx, .alloc 0 .evbase, .alloc 0 .mutex,
       .alloc 1 .ctx,
       .release 1 .mutex, .release 1 .ctx,
       .release 0 .evbase, .release 0 .mutex, .release 0 .ctx,
       .array_free] ∧
    (SrcPxythrmgr.pxy_thrmgr_run evbaseFailsAtSlot1 2).trace.count (.release 1 .mutex) = 1 ∧
    (SrcPxythrmgr.pxy_thrmgr_run evbaseFailsAtSlot1 2).trace.count (.alloc 1 .mutex) = 0 ∧
    (Pxythrmgr.pxy_thrmgr_run evbaseFailsAtSlot1 2).trace =
      [.pool_mutex_init, .array_alloc,
       .alloc 0 .ctx, .alloc 0 .evbase,
       .alloc 1 .ctx,
       .release 1 .ctx,
       .release 0 .evbase, .release 0 .ctx,
       .pool_mutex_destroy, .array_free] := by
  refine ⟨by decide, by decide, by decide, by decide, by decide, by decide⟩

/-- The roll-back of src/pxythrmgr.c at the surroundings of the failing input:
two slots, `event_base_new` failing for slot `1`. -/
theorem run_rolls_back_on_alloc_failure_witness :
    (Pxythrmgr.pxy_thrmgr_run evbaseFailsAtSlot1 2).ret = -1 ∧
    (Pxythrmgr.pxy_thrmgr_run evbaseFailsAtSlot1 2).thr = none ∧
    (∀ idx, RunEvent.thread_create idx ∉ (Pxythrmgr.pxy_thrmgr_run evbaseFailsAtSlot1 2).trace) ∧
    (∀ j r, (Pxythrmgr.pxy_thrmgr_run evbaseFailsAtSlot1 2).trace.count (RunEvent.release j r)
        = (Pxythrmgr.pxy_thrmgr_run evbaseFailsAtSlot1 2).trace.count (RunEvent.alloc j r) ∧
      (Pxythrmgr.pxy_thrmgr_run evbaseFailsAtSlot1 2).trace.count (RunEvent.alloc j r) ≤ 1) :=
  run_rolls_back_on_alloc_failure evbaseFailsAtSlot1 2 1 rfl (by decide)
    (fun j hj => by
      have h0 : j = 0 := by omega
      subst h0
      decide)
    (by decide)

/-- The roll-back of src/src/pxythrmgr.c at the failing input: everything is
released as often as it was allocated except the mutex of slot `1`. -/
theorem src_run_rolls_back_save_mutex_witness :
    (∀ j r, (j ≠ 1 ∨ r ≠ RunRes.mutex ∨ evbaseFailsAtSlot1.alloc_ok 1 .ctx = false) →
      (SrcPxythrmgr.pxy_thrmgr_run evbaseFailsAtSlot1 2).trace.count (RunEvent.release j r)
        = (SrcPxythrmgr.pxy_thrmgr_run evbaseFailsAtSlot1 2).trace.count (RunEvent.alloc j r) ∧
      (SrcPxythrmgr.pxy_thrmgr_run evbaseFailsAtSlot1 2).trace.count (RunEvent.alloc j r) ≤ 1) ∧
    (SrcPxythrmgr.pxy_thrmgr_run evbaseFailsAtSlot1 2).trace.count (RunEvent.release 1 .mutex) = 1 ∧
    (SrcPxythrmgr.pxy_thrmgr_run evbaseFailsAtSlot1 2).trace.count (RunEvent.alloc 1 .mutex) = 0 :=
  have h := src_run_rolls_back_save_mutex evbaseFailsAtSlot1 2 1 rfl (by decide)
    (fun j hj => by
      have h0 : j = 0 := by omega
      subst h0
      decide)
    (by decide)
  ⟨h.2.2.2.1, h.2.2.2.2 (by decide)⟩
